import Mathlib

/-!
Shallow embedding of the bcmath decimal multiplication core (`recmul.c`)
and proofs about it.

The embedding models the 64-bit platform (`SIZEOF_SIZE_T = 8`), so
`BC_UINT_T` is a 64-bit unsigned integer, `BC_MUL_UINT_DIGITS = 8` and
`BC_MUL_UINT_OVERFLOW = 10^8`.  Machine arithmetic on `BC_UINT_T` is
modelled as `Nat` arithmetic reduced modulo `2^64` (`u64`) at every
operation where the C program computes in the unsigned type and
wraparound would be observable.  Byte order is a parameter: `le = true`
models a little-endian platform, `le = false` a big-endian one.

Digit buffers (`char *` arrays of raw digit values 0..9, most
significant digit first) are modelled as `List Nat`.  The C code often
walks such buffers backwards from a pointer to the last digit; those
walks are modelled by passing the reversed (least-significant-first)
list.
-/

namespace BcMath

/-- The decimal base (`BASE` from bcmath.h). -/
def BASE : Nat := 10

/-- One more than the largest value of the 64-bit unsigned `BC_UINT_T`. -/
def UINT_LIMIT : Nat := 2 ^ 64

/-- `~((BC_UINT_T) 0)`, the largest 64-bit unsigned value. -/
def UINT_MAX : Nat := UINT_LIMIT - 1

/-- Wraparound of 64-bit unsigned arithmetic. -/
def u64 (x : Nat) : Nat := x % UINT_LIMIT

/-- Wraparound of 32-bit unsigned arithmetic. -/
def u32 (x : Nat) : Nat := x % 2 ^ 32

/-- `BC_MUL_UINT_DIGITS` on a 64-bit platform. -/
def BC_MUL_UINT_DIGITS : Nat := 8

/-- `BC_MUL_UINT_OVERFLOW` on a 64-bit platform. -/
def BC_MUL_UINT_OVERFLOW : Nat := 100000000

/-- `#define BC_MUL_MAX_ADD_COUNT (~((BC_UINT_T) 0) / (BC_MUL_UINT_OVERFLOW * BC_MUL_UINT_OVERFLOW))` -/
def BC_MUL_MAX_ADD_COUNT : Nat :=
  UINT_MAX / (BC_MUL_UINT_OVERFLOW * BC_MUL_UINT_OVERFLOW)

theorem max_add_count_eq : BC_MUL_MAX_ADD_COUNT = 1844 := by decide

/-! ### Positional values of digit / limb lists

`baseVal b l` is the value of the list `l` read least-significant-first
in base `b`.  It is the mathematical yardstick every packing, unpacking
and accumulation step is measured against.
-/

/-- Value of a least-significant-first list of digits in base `b`. -/
def baseVal (b : Nat) : List Nat → Nat
  | [] => 0
  | x :: xs => x + b * baseVal b xs

/-- Value of a most-significant-first digit buffer (the `n_value`
representation of bcmath). -/
def digitsVal (ds : List Nat) : Nat := baseVal BASE ds.reverse

theorem baseVal_append (b : Nat) (l1 l2 : List Nat) :
    baseVal b (l1 ++ l2) = baseVal b l1 + b ^ l1.length * baseVal b l2 := by
  induction l1 with
  | nil => simp [baseVal]
  | cons x xs ih =>
    have h : baseVal b ((x :: xs) ++ l2) = x + b * baseVal b (xs ++ l2) := rfl
    rw [h, ih, List.length_cons]
    simp only [baseVal, pow_succ]
    ring

theorem baseVal_lt (b : Nat) (l : List Nat) (hb : 0 < b)
    (h : ∀ d ∈ l, d < b) : baseVal b l < b ^ l.length := by
  induction l with
  | nil => simpa [baseVal] using hb
  | cons x xs ih =>
    have hx : x < b := h x (by simp)
    have hxs : baseVal b xs < b ^ xs.length := ih (fun d hd => h d (by simp [hd]))
    calc baseVal b (x :: xs) = x + b * baseVal b xs := rfl
      _ < b + b * baseVal b xs := by omega
      _ = b * (baseVal b xs + 1) := by ring
      _ ≤ b * b ^ xs.length := Nat.mul_le_mul_left b (by omega)
      _ = b ^ (x :: xs).length := by
          simp [List.length_cons, pow_succ]; ring

theorem baseVal_eq_zero_iff (b : Nat) (l : List Nat) (hb : 0 < b) :
    baseVal b l = 0 ↔ ∀ d ∈ l, d = 0 := by
  induction l with
  | nil => simp [baseVal]
  | cons x xs ih =>
    simp only [baseVal, List.mem_cons]
    constructor
    · intro h d hd
      have hx : x = 0 := by omega
      have hxs : baseVal b xs = 0 := by
        have h' : b * baseVal b xs = 0 := by omega
        rcases Nat.mul_eq_zero.mp h' with h'' | h''
        · omega
        · exact h''
      rcases hd with rfl | hd
      · exact hx
      · exact (ih.mp hxs) d hd
    · intro h
      have hx : x = 0 := h x (Or.inl rfl)
      have hxs : baseVal b xs = 0 := ih.mpr (fun d hd => h d (Or.inr hd))
      simp [hx, hxs]

theorem getD_mul_pow_le_baseVal (b : Nat) (l : List Nat) (i : Nat) :
    l.getD i 0 * b ^ i ≤ baseVal b l := by
  induction l generalizing i with
  | nil => simp [baseVal]
  | cons x xs ih =>
    cases i with
    | zero => simp [baseVal]
    | succ i =>
      have := ih i
      calc (x :: xs).getD (i + 1) 0 * b ^ (i + 1)
          = b * (xs.getD i 0 * b ^ i) := by simp [List.getD]; ring
        _ ≤ b * baseVal b xs := Nat.mul_le_mul_left b this
        _ ≤ baseVal b (x :: xs) := by simp [baseVal]

/-! ### Backward digit emission

Both multipliers finish with a loop of the shape
`while (pend >= pptr) { *pend-- = v % BASE; v /= BASE; }`, writing the
decimal digits of `v` from the least significant end of the output
buffer backwards.  `bc_backfill_digits v len` is the list of `len`
digit bytes such a loop produces (most significant digit first). -/

def bc_backfill_digits (v : Nat) : Nat → List Nat
  | 0 => []
  | len + 1 => bc_backfill_digits (v / BASE) len ++ [v % BASE]

theorem backfill_length (v len : Nat) : (bc_backfill_digits v len).length = len := by
  induction len generalizing v with
  | zero => rfl
  | succ n ih => simp [bc_backfill_digits, ih]

theorem backfill_digit_lt (v len : Nat) :
    ∀ d ∈ bc_backfill_digits v len, d < BASE := by
  induction len generalizing v with
  | zero => simp [bc_backfill_digits]
  | succ n ih =>
    intro d hd
    simp only [bc_backfill_digits, List.mem_append, List.mem_singleton] at hd
    rcases hd with hd | rfl
    · exact ih (v / BASE) d hd
    · exact Nat.mod_lt _ (by decide)

theorem backfill_mod (v len : Nat) :
    bc_backfill_digits v len = bc_backfill_digits (v % BASE ^ len) len := by
  induction len generalizing v with
  | zero => rfl
  | succ n ih =>
    have h1 : v % BASE ^ (n + 1) / BASE = v / BASE % BASE ^ n := by
      rw [pow_succ, Nat.mul_comm]
      exact Nat.mod_mul_right_div_self v BASE (BASE ^ n)
    have h2 : v % BASE ^ (n + 1) % BASE = v % BASE :=
      Nat.mod_mod_of_dvd v (dvd_pow_self BASE (Nat.succ_ne_zero n))
    simp only [bc_backfill_digits, h1, h2, ih (v / BASE)]

theorem backfill_split (v k m : Nat) :
    bc_backfill_digits v (k + m) =
      bc_backfill_digits (v / BASE ^ m) k ++ bc_backfill_digits v m := by
  induction m generalizing v with
  | zero => simp [bc_backfill_digits]
  | succ n ih =>
    have hd : v / BASE ^ (n + 1) = v / BASE / BASE ^ n := by
      rw [pow_succ, Nat.mul_comm, Nat.div_div_eq_div_mul, Nat.mul_comm]
    calc bc_backfill_digits v (k + (n + 1))
        = bc_backfill_digits (v / BASE) (k + n) ++ [v % BASE] := rfl
      _ = (bc_backfill_digits (v / BASE / BASE ^ n) k
            ++ bc_backfill_digits (v / BASE) n) ++ [v % BASE] := by rw [ih]
      _ = bc_backfill_digits (v / BASE ^ (n + 1)) k
            ++ bc_backfill_digits v (n + 1) := by
          rw [hd, List.append_assoc]
          rfl

theorem digitsVal_backfill (v len : Nat) :
    digitsVal (bc_backfill_digits v len) = v % BASE ^ len := by
  induction len generalizing v with
  | zero => simp [bc_backfill_digits, digitsVal, baseVal, Nat.mod_one]
  | succ n ih =>
    have hsplit : digitsVal (bc_backfill_digits v (n + 1))
        = v % BASE + BASE * digitsVal (bc_backfill_digits (v / BASE) n) := by
      unfold digitsVal
      simp [bc_backfill_digits, baseVal]
    rw [hsplit, ih]
    have h3 : v % (BASE ^ n * BASE) = BASE * (v / BASE % BASE ^ n) + v % BASE := by
      conv_lhs => rw [← Nat.div_add_mod (v % (BASE ^ n * BASE)) BASE]
      rw [Nat.mul_comm (BASE ^ n) BASE, Nat.mod_mul_right_div_self,
        Nat.mod_mod_of_dvd v (dvd_mul_right BASE (BASE ^ n))]
    rw [pow_succ, h3]
    omega

theorem digitsVal_backfill_of_lt (v len : Nat) (h : v < BASE ^ len) :
    digitsVal (bc_backfill_digits v len) = v := by
  rw [digitsVal_backfill, Nat.mod_eq_of_lt h]

theorem backfill_take (v n k : Nat) (h : k ≤ n) :
    (bc_backfill_digits v n).take k = bc_backfill_digits (v / BASE ^ (n - k)) k := by
  conv_lhs => rw [show n = k + (n - k) by omega, backfill_split v k (n - k)]
  exact List.take_left' (backfill_length _ _)

/-! ### Bit-manipulation groundwork

The divide-and-conquer parser and the BCD writer operate on machine
words via masks and shifts.  `land_block_split` is the key fact: `&&&`
distributes over aligned blocks of bits. -/

theorem land_block_split (k a b c d : Nat) (ha : a < 2 ^ k) (hc : c < 2 ^ k) :
    (a + b * 2 ^ k) &&& (c + d * 2 ^ k) = (a &&& c) + (b &&& d) * 2 ^ k := by
  have hac : a &&& c < 2 ^ k := Nat.and_lt_two_pow a hc
  apply Nat.eq_of_testBit_eq
  intro i
  rw [Nat.testBit_and]
  rw [Nat.add_comm a, Nat.add_comm c, Nat.add_comm (a &&& c),
    Nat.mul_comm b, Nat.mul_comm d, Nat.mul_comm (b &&& d)]
  rw [Nat.testBit_mul_pow_two_add b ha i, Nat.testBit_mul_pow_two_add d hc i,
    Nat.testBit_mul_pow_two_add (b &&& d) hac i]
  by_cases h : i < k
  · simp [h, Nat.testBit_and]
  · simp [h, Nat.testBit_and]

theorem shiftRight_add_mul (k a b : Nat) (ha : a < 2 ^ k) :
    (a + b * 2 ^ k) >>> k = b := by
  rw [Nat.shiftRight_eq_div_pow, Nat.add_mul_div_right a b (Nat.two_pow_pos k),
    Nat.div_eq_of_lt ha, Nat.zero_add]

theorem shiftRight_mul_self (k b : Nat) : (b * 2 ^ k) >>> k = b := by
  have h := shiftRight_add_mul k 0 b (Nat.two_pow_pos k)
  simpa using h

theorem extract_byte (x k : Nat) : (x >>> k) &&& 255 = x / 2 ^ k % 2 ^ 8 := by
  rw [Nat.shiftRight_eq_div_pow]
  exact Nat.and_pow_two_sub_one_eq_mod (x / 2 ^ k) 8

theorem u64_id (x : Nat) (h : x < 2 ^ 64) : u64 x = x := Nat.mod_eq_of_lt h

theorem u32_id (x : Nat) (h : x < 2 ^ 32) : u32 x = x := Nat.mod_eq_of_lt h

/-- `&&&` distributes over four aligned 16-bit blocks. -/
theorem land_block4 (p0 p1 p2 p3 q0 q1 q2 q3 : Nat)
    (h0 : p0 < 2 ^ 16) (h1 : p1 < 2 ^ 16) (h2 : p2 < 2 ^ 16)
    (g0 : q0 < 2 ^ 16) (g1 : q1 < 2 ^ 16) (g2 : q2 < 2 ^ 16) :
    (p0 + p1 * 2 ^ 16 + p2 * 2 ^ 32 + p3 * 2 ^ 48) &&&
      (q0 + q1 * 2 ^ 16 + q2 * 2 ^ 32 + q3 * 2 ^ 48)
      = (p0 &&& q0) + (p1 &&& q1) * 2 ^ 16 + (p2 &&& q2) * 2 ^ 32
        + (p3 &&& q3) * 2 ^ 48 := by
  have ep : p0 + p1 * 2 ^ 16 + p2 * 2 ^ 32 + p3 * 2 ^ 48
      = p0 + (p1 + (p2 + p3 * 2 ^ 16) * 2 ^ 16) * 2 ^ 16 := by ring
  have eq' : q0 + q1 * 2 ^ 16 + q2 * 2 ^ 32 + q3 * 2 ^ 48
      = q0 + (q1 + (q2 + q3 * 2 ^ 16) * 2 ^ 16) * 2 ^ 16 := by ring
  rw [ep, eq', land_block_split 16 _ _ _ _ h0 g0,
    land_block_split 16 _ _ _ _ h1 g1, land_block_split 16 _ _ _ _ h2 g2]
  ring

/-- `&&&` distributes over two aligned 32-bit blocks. -/
theorem land_block2 (p0 p1 q0 q1 : Nat) (h0 : p0 < 2 ^ 32) (g0 : q0 < 2 ^ 32) :
    (p0 + p1 * 2 ^ 32) &&& (q0 + q1 * 2 ^ 32)
      = (p0 &&& q0) + (p1 &&& q1) * 2 ^ 32 :=
  land_block_split 32 p0 p1 q0 q1 h0 g0

theorem land_small (x y : Nat) (hx : x < 2 ^ 4) : (x + y * 2 ^ 8) &&& 15 = x := by
  have e : x + y * 2 ^ 8 = x + (y * 2 ^ 4) * 2 ^ 4 := by ring
  have e2 : (15 : Nat) = 15 + 0 * 2 ^ 4 := by norm_num
  rw [e, e2, land_block_split 4 _ _ _ _ hx (by norm_num)]
  rw [Nat.and_zero, Nat.and_pow_two_sub_one_eq_mod x 4]
  omega

theorem land_high_nibble (x y : Nat) (hx : x < 2 ^ 8) (hy : y < 2 ^ 4) :
    (x + y * 2 ^ 8) &&& 0x0f00 = y * 2 ^ 8 := by
  have e2 : (0x0f00 : Nat) = 0 + 15 * 2 ^ 8 := by norm_num
  rw [e2, land_block_split 8 _ _ _ _ hx (by norm_num), Nat.and_zero,
    Nat.and_pow_two_sub_one_eq_mod y 4]
  omega

theorem land_low_byte (x y : Nat) (hx : x < 2 ^ 8) :
    (x + y * 2 ^ 16) &&& 255 = x := by
  have e : x + y * 2 ^ 16 = x + (y * 2 ^ 8) * 2 ^ 8 := by ring
  have e2 : (255 : Nat) = 255 + 0 * 2 ^ 8 := by norm_num
  rw [e, e2, land_block_split 8 _ _ _ _ (by omega) (by norm_num)]
  rw [Nat.and_zero, Nat.and_pow_two_sub_one_eq_mod x 8]
  omega

theorem land_high_byte (x y : Nat) (hx : x < 2 ^ 16) (hy : y < 2 ^ 8) :
    (x + y * 2 ^ 16) &&& 0x00ff0000 = y * 2 ^ 16 := by
  have e2 : (0x00ff0000 : Nat) = 0 + 255 * 2 ^ 16 := by norm_num
  rw [e2, land_block_split 16 _ _ _ _ hx (by norm_num), Nat.and_zero,
    Nat.and_pow_two_sub_one_eq_mod y 8]
  omega

theorem land_low_half (x y : Nat) (hx : x < 2 ^ 16) :
    (x + y * 2 ^ 32) &&& 0x000000000000ffff = x := by
  have e2 : (0x000000000000ffff : Nat) = 65535 + 0 * 2 ^ 32 := by norm_num
  rw [e2, land_block_split 32 _ _ _ _ (by omega) (by norm_num)]
  rw [Nat.and_zero, Nat.and_pow_two_sub_one_eq_mod x 16]
  omega

theorem land_high_half (x y : Nat) (hx : x < 2 ^ 32) (hy : y < 2 ^ 16) :
    (x + y * 2 ^ 32) &&& 0x0000ffff00000000 = y * 2 ^ 32 := by
  have e2 : (0x0000ffff00000000 : Nat) = 0 + 65535 * 2 ^ 32 := by norm_num
  rw [e2, land_block_split 32 _ _ _ _ hx (by norm_num), Nat.and_zero,
    Nat.and_pow_two_sub_one_eq_mod y 16]
  omega

/-! ### The divide-and-conquer chunk parser (`bc_parse_chunk_chars`)

The C function `memcpy`s 8 digit bytes into a `uint64_t`, byte-swaps on
a big-endian platform, and then combines adjacent digits pairwise with
weights 10, 100 and 10000. -/

/-- The value a `memcpy` of the byte list `bs` (lowest address first)
into a machine word produces on a little-endian machine. -/
def bytesToWordLE (bs : List Nat) : Nat :=
  bs.foldr (fun b acc => b + 2 ^ 8 * acc) 0

/-- The value the same `memcpy` produces on a big-endian machine. -/
def bytesToWordBE (bs : List Nat) : Nat :=
  bs.foldl (fun acc b => 2 ^ 8 * acc + b) 0

/-- `BC_BSWAP` on a 64-bit platform: reverse the eight bytes of a word. -/
def bswap64 (x : Nat) : Nat :=
  ((x >>> 56) &&& 255) + ((x >>> 48) &&& 255) * 2 ^ 8
    + ((x >>> 40) &&& 255) * 2 ^ 16 + ((x >>> 32) &&& 255) * 2 ^ 24
    + ((x >>> 24) &&& 255) * 2 ^ 32 + ((x >>> 16) &&& 255) * 2 ^ 40
    + ((x >>> 8) &&& 255) * 2 ^ 48 + (x &&& 255) * 2 ^ 56

/-- `bc_parse_chunk_chars` (64-bit variant).  `bs` is the list of the
eight digit bytes at increasing addresses (most significant digit
first).  On a big-endian platform the loaded word is byte-swapped
first (`#if !BC_LITTLE_ENDIAN`). -/
def bc_parse_chunk_chars (le : Bool) (bs : List Nat) : Nat :=
  let tmp := if le then bytesToWordLE bs else bswap64 (bytesToWordBE bs)
  let lower1 := (tmp &&& 0x0f000f000f000f00) >>> 8
  let upper1 := u64 ((tmp &&& 0x000f000f000f000f) * 10)
  let tmp1 := u64 (lower1 + upper1)
  let lower2 := (tmp1 &&& 0x00ff000000ff0000) >>> 16
  let upper2 := u64 ((tmp1 &&& 0x000000ff000000ff) * 100)
  let tmp2 := u64 (lower2 + upper2)
  let lower3 := (tmp2 &&& 0x0000ffff00000000) >>> 32
  let upper3 := u64 ((tmp2 &&& 0x000000000000ffff) * 10000)
  u64 (lower3 + upper3)

theorem chunk_stage1 (b0 b1 b2 b3 b4 b5 b6 b7 : Nat)
    (h0 : b0 < 10) (h1 : b1 < 10) (h2 : b2 < 10) (h3 : b3 < 10)
    (h4 : b4 < 10) (h5 : b5 < 10) (h6 : b6 < 10) (h7 : b7 < 10) :
    u64 (((b0 + b1 * 2 ^ 8 + b2 * 2 ^ 16 + b3 * 2 ^ 24 + b4 * 2 ^ 32 + b5 * 2 ^ 40
            + b6 * 2 ^ 48 + b7 * 2 ^ 56) &&& 0x0f000f000f000f00) >>> 8
        + u64 (((b0 + b1 * 2 ^ 8 + b2 * 2 ^ 16 + b3 * 2 ^ 24 + b4 * 2 ^ 32 + b5 * 2 ^ 40
            + b6 * 2 ^ 48 + b7 * 2 ^ 56) &&& 0x000f000f000f000f) * 10))
      = (10 * b0 + b1) + (10 * b2 + b3) * 2 ^ 16 + (10 * b4 + b5) * 2 ^ 32
        + (10 * b6 + b7) * 2 ^ 48 := by
  have hTb : b0 + b1 * 2 ^ 8 + b2 * 2 ^ 16 + b3 * 2 ^ 24 + b4 * 2 ^ 32 + b5 * 2 ^ 40
      + b6 * 2 ^ 48 + b7 * 2 ^ 56
      = (b0 + b1 * 2 ^ 8) + (b2 + b3 * 2 ^ 8) * 2 ^ 16 + (b4 + b5 * 2 ^ 8) * 2 ^ 32
        + (b6 + b7 * 2 ^ 8) * 2 ^ 48 := by ring
  have hmh : (0x0f000f000f000f00 : Nat)
      = 0x0f00 + 0x0f00 * 2 ^ 16 + 0x0f00 * 2 ^ 32 + 0x0f00 * 2 ^ 48 := by norm_num
  have hml : (0x000f000f000f000f : Nat)
      = 15 + 15 * 2 ^ 16 + 15 * 2 ^ 32 + 15 * 2 ^ 48 := by norm_num
  rw [hTb, hmh, hml]
  rw [land_block4 (b0 + b1 * 2 ^ 8) (b2 + b3 * 2 ^ 8) (b4 + b5 * 2 ^ 8) (b6 + b7 * 2 ^ 8)
    0x0f00 0x0f00 0x0f00 0x0f00 (by omega) (by omega) (by omega)
    (by norm_num) (by norm_num) (by norm_num)]
  rw [land_block4 (b0 + b1 * 2 ^ 8) (b2 + b3 * 2 ^ 8) (b4 + b5 * 2 ^ 8) (b6 + b7 * 2 ^ 8)
    15 15 15 15 (by omega) (by omega) (by omega)
    (by norm_num) (by norm_num) (by norm_num)]
  rw [land_high_nibble b0 b1 (by omega) (by omega), land_high_nibble b2 b3 (by omega) (by omega),
    land_high_nibble b4 b5 (by omega) (by omega), land_high_nibble b6 b7 (by omega) (by omega)]
  rw [land_small b0 b1 (by omega), land_small b2 b3 (by omega),
    land_small b4 b5 (by omega), land_small b6 b7 (by omega)]
  have hsh : b1 * 2 ^ 8 + b3 * 2 ^ 8 * 2 ^ 16 + b5 * 2 ^ 8 * 2 ^ 32 + b7 * 2 ^ 8 * 2 ^ 48
      = (b1 + b3 * 2 ^ 16 + b5 * 2 ^ 32 + b7 * 2 ^ 48) * 2 ^ 8 := by ring
  rw [hsh, shiftRight_mul_self]
  rw [u64_id ((b0 + b2 * 2 ^ 16 + b4 * 2 ^ 32 + b6 * 2 ^ 48) * 10) (by omega)]
  rw [u64_id _ (by omega)]
  ring

theorem chunk_stage2 (q0 q1 q2 q3 : Nat)
    (h0 : q0 < 100) (h1 : q1 < 100) (h2 : q2 < 100) (h3 : q3 < 100) :
    u64 (((q0 + q1 * 2 ^ 16 + q2 * 2 ^ 32 + q3 * 2 ^ 48) &&& 0x00ff000000ff0000) >>> 16
        + u64 (((q0 + q1 * 2 ^ 16 + q2 * 2 ^ 32 + q3 * 2 ^ 48) &&& 0x000000ff000000ff) * 100))
      = (100 * q0 + q1) + (100 * q2 + q3) * 2 ^ 32 := by
  have hTb : q0 + q1 * 2 ^ 16 + q2 * 2 ^ 32 + q3 * 2 ^ 48
      = (q0 + q1 * 2 ^ 16) + (q2 + q3 * 2 ^ 16) * 2 ^ 32 := by ring
  have hmh : (0x00ff000000ff0000 : Nat) = 0x00ff0000 + 0x00ff0000 * 2 ^ 32 := by norm_num
  have hml : (0x000000ff000000ff : Nat) = 255 + 255 * 2 ^ 32 := by norm_num
  rw [hTb, hmh, hml]
  rw [land_block2 (q0 + q1 * 2 ^ 16) (q2 + q3 * 2 ^ 16) 0x00ff0000 0x00ff0000
    (by omega) (by norm_num)]
  rw [land_block2 (q0 + q1 * 2 ^ 16) (q2 + q3 * 2 ^ 16) 255 255 (by omega) (by norm_num)]
  rw [land_high_byte q0 q1 (by omega) (by omega), land_high_byte q2 q3 (by omega) (by omega),
    land_low_byte q0 q1 (by omega), land_low_byte q2 q3 (by omega)]
  have hsh : q1 * 2 ^ 16 + q3 * 2 ^ 16 * 2 ^ 32 = (q1 + q3 * 2 ^ 32) * 2 ^ 16 := by ring
  rw [hsh, shiftRight_mul_self]
  rw [u64_id ((q0 + q2 * 2 ^ 32) * 100) (by omega), u64_id _ (by omega)]
  ring

theorem chunk_stage3 (r0 r1 : Nat) (h0 : r0 < 10000) (h1 : r1 < 10000) :
    u64 (((r0 + r1 * 2 ^ 32) &&& 0x0000ffff00000000) >>> 32
        + u64 (((r0 + r1 * 2 ^ 32) &&& 0x000000000000ffff) * 10000))
      = 10000 * r0 + r1 := by
  rw [land_high_half r0 r1 (by omega) (by omega), land_low_half r0 r1 (by omega)]
  rw [shiftRight_mul_self, u64_id (r0 * 10000) (by omega), u64_id _ (by omega)]
  ring

set_option maxHeartbeats 1600000 in
theorem bswap64_bytes (b0 b1 b2 b3 b4 b5 b6 b7 : Nat)
    (h0 : b0 < 10) (h1 : b1 < 10) (h2 : b2 < 10) (h3 : b3 < 10)
    (h4 : b4 < 10) (h5 : b5 < 10) (h6 : b6 < 10) (h7 : b7 < 10) :
    bswap64 (b7 + b6 * 2 ^ 8 + b5 * 2 ^ 16 + b4 * 2 ^ 24 + b3 * 2 ^ 32 + b2 * 2 ^ 40
        + b1 * 2 ^ 48 + b0 * 2 ^ 56)
      = b0 + b1 * 2 ^ 8 + b2 * 2 ^ 16 + b3 * 2 ^ 24 + b4 * 2 ^ 32 + b5 * 2 ^ 40
        + b6 * 2 ^ 48 + b7 * 2 ^ 56 := by
  unfold bswap64
  rw [extract_byte, extract_byte, extract_byte, extract_byte, extract_byte,
    extract_byte, extract_byte, Nat.and_pow_two_sub_one_eq_mod _ 8]
  have e0 : (b7 + b6 * 2 ^ 8 + b5 * 2 ^ 16 + b4 * 2 ^ 24 + b3 * 2 ^ 32 + b2 * 2 ^ 40
      + b1 * 2 ^ 48 + b0 * 2 ^ 56) / 2 ^ 56 % 2 ^ 8 = b0 := by omega
  have e1 : (b7 + b6 * 2 ^ 8 + b5 * 2 ^ 16 + b4 * 2 ^ 24 + b3 * 2 ^ 32 + b2 * 2 ^ 40
      + b1 * 2 ^ 48 + b0 * 2 ^ 56) / 2 ^ 48 % 2 ^ 8 = b1 := by omega
  have e2 : (b7 + b6 * 2 ^ 8 + b5 * 2 ^ 16 + b4 * 2 ^ 24 + b3 * 2 ^ 32 + b2 * 2 ^ 40
      + b1 * 2 ^ 48 + b0 * 2 ^ 56) / 2 ^ 40 % 2 ^ 8 = b2 := by omega
  have e3 : (b7 + b6 * 2 ^ 8 + b5 * 2 ^ 16 + b4 * 2 ^ 24 + b3 * 2 ^ 32 + b2 * 2 ^ 40
      + b1 * 2 ^ 48 + b0 * 2 ^ 56) / 2 ^ 32 % 2 ^ 8 = b3 := by omega
  have e4 : (b7 + b6 * 2 ^ 8 + b5 * 2 ^ 16 + b4 * 2 ^ 24 + b3 * 2 ^ 32 + b2 * 2 ^ 40
      + b1 * 2 ^ 48 + b0 * 2 ^ 56) / 2 ^ 24 % 2 ^ 8 = b4 := by omega
  have e5 : (b7 + b6 * 2 ^ 8 + b5 * 2 ^ 16 + b4 * 2 ^ 24 + b3 * 2 ^ 32 + b2 * 2 ^ 40
      + b1 * 2 ^ 48 + b0 * 2 ^ 56) / 2 ^ 16 % 2 ^ 8 = b5 := by omega
  have e6 : (b7 + b6 * 2 ^ 8 + b5 * 2 ^ 16 + b4 * 2 ^ 24 + b3 * 2 ^ 32 + b2 * 2 ^ 40
      + b1 * 2 ^ 48 + b0 * 2 ^ 56) / 2 ^ 8 % 2 ^ 8 = b6 := by omega
  have e7 : (b7 + b6 * 2 ^ 8 + b5 * 2 ^ 16 + b4 * 2 ^ 24 + b3 * 2 ^ 32 + b2 * 2 ^ 40
      + b1 * 2 ^ 48 + b0 * 2 ^ 56) % 2 ^ 8 = b7 := by omega
  rw [e0, e1, e2, e3, e4, e5, e6, e7]

set_option maxHeartbeats 1600000 in
theorem chunk_correct (le : Bool) (b0 b1 b2 b3 b4 b5 b6 b7 : Nat)
    (h0 : b0 < 10) (h1 : b1 < 10) (h2 : b2 < 10) (h3 : b3 < 10)
    (h4 : b4 < 10) (h5 : b5 < 10) (h6 : b6 < 10) (h7 : b7 < 10) :
    bc_parse_chunk_chars le [b0, b1, b2, b3, b4, b5, b6, b7]
      = ((10 * b0 + b1) * 100 + (10 * b2 + b3)) * 10000
        + ((10 * b4 + b5) * 100 + (10 * b6 + b7)) := by
  have htmp : (if le then bytesToWordLE [b0, b1, b2, b3, b4, b5, b6, b7]
        else bswap64 (bytesToWordBE [b0, b1, b2, b3, b4, b5, b6, b7]))
      = b0 + b1 * 2 ^ 8 + b2 * 2 ^ 16 + b3 * 2 ^ 24 + b4 * 2 ^ 32 + b5 * 2 ^ 40
        + b6 * 2 ^ 48 + b7 * 2 ^ 56 := by
    cases le with
    | false =>
      have hbe : bswap64 (bytesToWordBE [b0, b1, b2, b3, b4, b5, b6, b7])
          = b0 + b1 * 2 ^ 8 + b2 * 2 ^ 16 + b3 * 2 ^ 24 + b4 * 2 ^ 32 + b5 * 2 ^ 40
            + b6 * 2 ^ 48 + b7 * 2 ^ 56 := by
        have hval : bytesToWordBE [b0, b1, b2, b3, b4, b5, b6, b7]
            = b7 + b6 * 2 ^ 8 + b5 * 2 ^ 16 + b4 * 2 ^ 24 + b3 * 2 ^ 32 + b2 * 2 ^ 40
              + b1 * 2 ^ 48 + b0 * 2 ^ 56 := by
          simp [bytesToWordBE]
          ring
        rw [hval]
        exact bswap64_bytes b0 b1 b2 b3 b4 b5 b6 b7 h0 h1 h2 h3 h4 h5 h6 h7
      simpa using hbe
    | true =>
      have hle : bytesToWordLE [b0, b1, b2, b3, b4, b5, b6, b7]
          = b0 + b1 * 2 ^ 8 + b2 * 2 ^ 16 + b3 * 2 ^ 24 + b4 * 2 ^ 32 + b5 * 2 ^ 40
            + b6 * 2 ^ 48 + b7 * 2 ^ 56 := by
        simp [bytesToWordLE]
        ring
      simpa using hle
  simp only [bc_parse_chunk_chars]
  rw [htmp]
  rw [chunk_stage1 b0 b1 b2 b3 b4 b5 b6 b7 h0 h1 h2 h3 h4 h5 h6 h7]
  rw [chunk_stage2 (10 * b0 + b1) (10 * b2 + b3) (10 * b4 + b5) (10 * b6 + b7)
    (by omega) (by omega) (by omega) (by omega)]
  rw [chunk_stage3 (100 * (10 * b0 + b1) + (10 * b2 + b3))
    (100 * (10 * b4 + b5) + (10 * b6 + b7)) (by omega) (by omega)]
  ring

set_option maxHeartbeats 800000 in
/-- The chunk parser returns the base-10 value of the eight digit
bytes, on either byte order. -/
theorem parse_chunk_eq_digits (le : Bool) (bs : List Nat) (hlen : bs.length = 8)
    (hd : ∀ d ∈ bs, d < 10) :
    bc_parse_chunk_chars le bs = baseVal BASE bs.reverse := by
  cases bs with
  | nil => exact absurd hlen (by simp)
  | cons b0 t0 =>
  cases t0 with
  | nil => exact absurd hlen (by simp)
  | cons b1 t1 =>
  cases t1 with
  | nil => exact absurd hlen (by simp)
  | cons b2 t2 =>
  cases t2 with
  | nil => exact absurd hlen (by simp)
  | cons b3 t3 =>
  cases t3 with
  | nil => exact absurd hlen (by simp)
  | cons b4 t4 =>
  cases t4 with
  | nil => exact absurd hlen (by simp)
  | cons b5 t5 =>
  cases t5 with
  | nil => exact absurd hlen (by simp)
  | cons b6 t6 =>
  cases t6 with
  | nil => exact absurd hlen (by simp)
  | cons b7 t7 =>
  cases t7 with
  | cons b8 t8 => exact absurd hlen (by simp)
  | nil =>
    rw [chunk_correct le b0 b1 b2 b3 b4 b5 b6 b7
      (hd b0 (by simp)) (hd b1 (by simp)) (hd b2 (by simp)) (hd b3 (by simp))
      (hd b4 (by simp)) (hd b5 (by simp)) (hd b6 (by simp)) (hd b7 (by simp))]
    simp [baseVal, BASE]
    ring

/-! ### Packing digit bytes into limbs -/

/-- The `len < W` fallback loop of `bc_partial_convert_to_uint`:
`num` and `base` accumulate while the pointer walks backwards, i.e.
along `rds`, the reversed (least-significant-first) digit list. -/
def bc_convert_loop : List Nat → Nat → Nat → Nat → Nat
  | _, 0, num, _ => num
  | [], _ + 1, num, _ => num
  | d :: rest, len + 1, num, base => bc_convert_loop rest len (num + d * base) (base * BASE)

/-- `bc_partial_convert_to_uint(n, len)`: convert the `len` digit bytes
ending at pointer `n` into an unsigned integer.  `rds` is the digit
sequence starting at `n` and walking backwards; when `len` is exactly
`BC_MUL_UINT_DIGITS` the bit-trick parser reads the same bytes forward
from `n - BC_MUL_UINT_DIGITS + 1`. -/
def bc_partial_convert_to_uint (le : Bool) (rds : List Nat) (len : Nat) : Nat :=
  if len = BC_MUL_UINT_DIGITS then
    bc_parse_chunk_chars le (rds.take BC_MUL_UINT_DIGITS).reverse
  else
    bc_convert_loop rds len 0 1

theorem convert_loop_spec (rds : List Nat) (len num base : Nat) (h : len ≤ rds.length) :
    bc_convert_loop rds len num base = num + base * baseVal BASE (rds.take len) := by
  induction rds generalizing len num base with
  | nil =>
    cases len with
    | zero => simp [bc_convert_loop, baseVal]
    | succ n => simp [bc_convert_loop, baseVal]
  | cons d rest ih =>
    cases len with
    | zero => simp [bc_convert_loop, baseVal]
    | succ n =>
      have hrec := ih n (num + d * base) (base * BASE) (by simpa using h)
      calc bc_convert_loop (d :: rest) (n + 1) num base
          = bc_convert_loop rest n (num + d * base) (base * BASE) := rfl
        _ = num + d * base + base * BASE * baseVal BASE (rest.take n) := hrec
        _ = num + base * baseVal BASE ((d :: rest).take (n + 1)) := by
            simp only [List.take_succ_cons, baseVal]
            ring

theorem partial_convert_spec (le : Bool) (rds : List Nat) (len : Nat)
    (hlen : len ≤ rds.length) (hd : ∀ d ∈ rds, d < 10) :
    bc_partial_convert_to_uint le rds len = baseVal BASE (rds.take len) := by
  unfold bc_partial_convert_to_uint
  by_cases h : len = BC_MUL_UINT_DIGITS
  · subst h
    rw [if_pos rfl]
    rw [parse_chunk_eq_digits le _
      (by simp only [List.length_reverse, List.length_take, BC_MUL_UINT_DIGITS] at hlen ⊢
          omega)
      (fun d hd' => hd d (List.take_subset _ _ (List.mem_reverse.mp hd')))]
    rw [List.reverse_reverse]
  · rw [if_neg h, convert_loop_spec rds len 0 1 hlen]
    omega

/-- `bc_convert_to_uint`: split a digit buffer (walked backwards from
its least significant digit: `rds` is the reversed buffer) into limbs
of up to `W` digits each, least significant limb first. -/
def bc_convert_to_uint (le : Bool) (rds : List Nat) (nlen : Nat) : List Nat :=
  if h : nlen = 0 then []
  else
    let len := min BC_MUL_UINT_DIGITS nlen
    bc_partial_convert_to_uint le rds len
      :: bc_convert_to_uint le (rds.drop len) (nlen - len)
termination_by nlen
decreasing_by
  simp only [BC_MUL_UINT_DIGITS]
  omega

theorem convert_to_uint_spec (le : Bool) (nlen : Nat) : ∀ (rds : List Nat),
    nlen ≤ rds.length → (∀ d ∈ rds, d < 10) →
    (bc_convert_to_uint le rds nlen).length
        = (nlen + BC_MUL_UINT_DIGITS - 1) / BC_MUL_UINT_DIGITS
      ∧ (∀ limb ∈ bc_convert_to_uint le rds nlen, limb < BC_MUL_UINT_OVERFLOW)
      ∧ baseVal BC_MUL_UINT_OVERFLOW (bc_convert_to_uint le rds nlen)
          = baseVal BASE (rds.take nlen) := by
  induction nlen using Nat.strong_induction_on with
  | _ nlen ih =>
    intro rds hlen hd
    by_cases h0 : nlen = 0
    · subst h0
      rw [bc_convert_to_uint]
      simp [baseVal, BC_MUL_UINT_DIGITS]
    · rw [bc_convert_to_uint, dif_neg h0]
      have hmin1 : 1 ≤ min BC_MUL_UINT_DIGITS nlen := by
        simp only [BC_MUL_UINT_DIGITS]; omega
      have hminl : min BC_MUL_UINT_DIGITS nlen ≤ nlen := Nat.min_le_right _ _
      have hdec : nlen - min BC_MUL_UINT_DIGITS nlen < nlen := by omega
      have hdrop : nlen - min BC_MUL_UINT_DIGITS nlen
          ≤ (rds.drop (min BC_MUL_UINT_DIGITS nlen)).length := by
        simp only [List.length_drop]; omega
      have hddrop : ∀ d ∈ rds.drop (min BC_MUL_UINT_DIGITS nlen), d < 10 :=
        fun d hd' => hd d (List.drop_subset _ _ hd')
      obtain ⟨ihlen, ihbound, ihval⟩ := ih _ hdec (rds.drop (min BC_MUL_UINT_DIGITS nlen)) hdrop hddrop
      have hpc := partial_convert_spec le rds (min BC_MUL_UINT_DIGITS nlen)
        (le_trans hminl hlen) hd
      have htklen : (rds.take (min BC_MUL_UINT_DIGITS nlen)).length
          = min BC_MUL_UINT_DIGITS nlen := by
        simp only [List.length_take]
        omega
      have hheadlt : bc_partial_convert_to_uint le rds (min BC_MUL_UINT_DIGITS nlen)
          < BC_MUL_UINT_OVERFLOW := by
        rw [hpc]
        calc baseVal BASE (rds.take (min BC_MUL_UINT_DIGITS nlen))
            < BASE ^ (rds.take (min BC_MUL_UINT_DIGITS nlen)).length :=
              baseVal_lt _ _ (by decide) (fun d hd' => hd d (List.take_subset _ _ hd'))
          _ ≤ BASE ^ BC_MUL_UINT_DIGITS := by
              apply Nat.pow_le_pow_right (by decide)
              rw [htklen]
              exact Nat.min_le_left _ _
          _ = BC_MUL_UINT_OVERFLOW := by decide
      refine ⟨?_, ?_, ?_⟩
      · simp only [List.length_cons, ihlen, BC_MUL_UINT_DIGITS] at *
        omega
      · intro limb hlimb
        rcases List.mem_cons.mp hlimb with rfl | hlimb
        · exact hheadlt
        · exact ihbound limb hlimb
      · have hsplit : rds.take nlen
            = rds.take (min BC_MUL_UINT_DIGITS nlen)
              ++ (rds.drop (min BC_MUL_UINT_DIGITS nlen)).take
                  (nlen - min BC_MUL_UINT_DIGITS nlen) := by
          rw [← List.take_add]
          congr 1
          omega
        rw [hsplit, baseVal_append, htklen]
        show bc_partial_convert_to_uint le rds (min BC_MUL_UINT_DIGITS nlen)
            + BC_MUL_UINT_OVERFLOW * baseVal BC_MUL_UINT_OVERFLOW _ = _
        rw [ihval, hpc]
        by_cases hsmall : nlen ≤ BC_MUL_UINT_DIGITS
        · have hminn : min BC_MUL_UINT_DIGITS nlen = nlen := by omega
          rw [hminn]
          simp only [Nat.sub_self, List.take_zero, baseVal]
          ring
        · have hminn : min BC_MUL_UINT_DIGITS nlen = BC_MUL_UINT_DIGITS := by
            simp only [BC_MUL_UINT_DIGITS] at *
            omega
          rw [hminn]
          norm_num [BASE, BC_MUL_UINT_DIGITS, BC_MUL_UINT_OVERFLOW]

/-! ### The fast-path multiplier -/

/-- `bc_fast_mul`: both operands fit in one limb; multiply the two
packed limbs natively and write the digits back with the scalar
divide/modulo loop.  `n1`, `n2` are the operand digit buffers (most
significant digit first). -/
def bc_fast_mul (le : Bool) (n1 : List Nat) (n1len : Nat) (n2 : List Nat) (n2len : Nat) :
    List Nat :=
  let n1_uint := bc_partial_convert_to_uint le n1.reverse n1len
  let n2_uint := bc_partial_convert_to_uint le n2.reverse n2len
  let prod_uint := u64 (n1_uint * n2_uint)
  bc_backfill_digits prod_uint (n1len + n2len)

theorem digitsVal_lt (ds : List Nat) (hd : ∀ d ∈ ds, d < 10) :
    digitsVal ds < BASE ^ ds.length := by
  have h := baseVal_lt BASE ds.reverse (by decide)
    (fun d hd' => hd d (List.mem_reverse.mp hd'))
  rwa [List.length_reverse] at h

theorem fast_mul_spec (le : Bool) (n1 n2 : List Nat) (len1 len2 : Nat)
    (h1 : n1.length = len1) (h2 : n2.length = len2)
    (hw1 : len1 ≤ BC_MUL_UINT_DIGITS) (hw2 : len2 ≤ BC_MUL_UINT_DIGITS)
    (hd1 : ∀ d ∈ n1, d < 10) (hd2 : ∀ d ∈ n2, d < 10) :
    bc_fast_mul le n1 len1 n2 len2
      = bc_backfill_digits (digitsVal n1 * digitsVal n2) (len1 + len2) := by
  have hp1 : bc_partial_convert_to_uint le n1.reverse len1 = digitsVal n1 := by
    rw [partial_convert_spec le n1.reverse len1 (by simp [h1])
      (fun d hd' => hd1 d (List.mem_reverse.mp hd'))]
    rw [List.take_of_length_le (by simp [h1])]
    rfl
  have hp2 : bc_partial_convert_to_uint le n2.reverse len2 = digitsVal n2 := by
    rw [partial_convert_spec le n2.reverse len2 (by simp [h2])
      (fun d hd' => hd2 d (List.mem_reverse.mp hd'))]
    rw [List.take_of_length_le (by simp [h2])]
    rfl
  have hb1 : digitsVal n1 < BC_MUL_UINT_OVERFLOW := by
    calc digitsVal n1 < BASE ^ n1.length := digitsVal_lt n1 hd1
      _ ≤ BASE ^ BC_MUL_UINT_DIGITS := Nat.pow_le_pow_right (by decide) (h1 ▸ hw1)
      _ = BC_MUL_UINT_OVERFLOW := by decide
  have hb2 : digitsVal n2 < BC_MUL_UINT_OVERFLOW := by
    calc digitsVal n2 < BASE ^ n2.length := digitsVal_lt n2 hd2
      _ ≤ BASE ^ BC_MUL_UINT_DIGITS := Nat.pow_le_pow_right (by decide) (h2 ▸ hw2)
      _ = BC_MUL_UINT_OVERFLOW := by decide
  have hprod : digitsVal n1 * digitsVal n2 < 2 ^ 64 := by
    calc digitsVal n1 * digitsVal n2
        < BC_MUL_UINT_OVERFLOW * BC_MUL_UINT_OVERFLOW :=
          Nat.mul_lt_mul_of_lt_of_le hb1 (le_of_lt hb2) (by decide)
      _ < 2 ^ 64 := by decide
  simp only [bc_fast_mul]
  rw [hp1, hp2, u64_id _ hprod]

/-! ### The BCD writer (`LUT`, `bc_expand_lut`,
`bc_write_bcd_representation`) -/

/-- `BC_ENCODE_LUT(A, B)`: endian-dependent nibble packing of the two
decimal digits of a two-digit number. -/
def BC_ENCODE_LUT (le : Bool) (A B : Nat) : Nat :=
  if le then A ||| B <<< 4 else B ||| A <<< 4

/-- The static 100-entry `LUT`: entry `10*A + B` (built by
`LUT_ITERATE`) holds `BC_ENCODE_LUT(A, B)`. -/
def LUT (le : Bool) (n : Nat) : Nat := BC_ENCODE_LUT le (n / 10) (n % 10)

/-- `bc_expand_lut`: spread the two nibbles of a LUT entry over two
bytes. -/
def bc_expand_lut (c : Nat) : Nat := (c &&& 0x0f) ||| (c &&& 0xf0) <<< 4

/-- Memory bytes (lowest address first) that a 32-bit store of `x`
leaves in memory on the given byte order (the `memcpy(str, &digits, 4)`
at the end of `bc_write_bcd_representation`). -/
def wordBytes4 (le : Bool) (x : Nat) : List Nat :=
  if le then [x &&& 255, (x >>> 8) &&& 255, (x >>> 16) &&& 255, (x >>> 24) &&& 255]
  else [(x >>> 24) &&& 255, (x >>> 16) &&& 255, (x >>> 8) &&& 255, x &&& 255]

/-- `bc_write_bcd_representation(value, str)`: the four digit bytes the
function writes to `str`. -/
def bc_write_bcd_representation (le : Bool) (value : Nat) : List Nat :=
  let upper := value / 100
  let lower := value % 100
  let digits := if le
    then u32 (bc_expand_lut (LUT le lower) <<< 16 ||| bc_expand_lut (LUT le upper))
    else u32 (bc_expand_lut (LUT le upper) <<< 16 ||| bc_expand_lut (LUT le lower))
  wordBytes4 le digits

/-- `|||` distributes over aligned blocks of bits. -/
theorem lor_block_split (k a b c d : Nat) (ha : a < 2 ^ k) (hc : c < 2 ^ k) :
    (a + b * 2 ^ k) ||| (c + d * 2 ^ k) = (a ||| c) + (b ||| d) * 2 ^ k := by
  have hac : a ||| c < 2 ^ k := Nat.or_lt_two_pow ha hc
  apply Nat.eq_of_testBit_eq
  intro i
  rw [Nat.testBit_or]
  rw [Nat.add_comm a, Nat.add_comm c, Nat.add_comm (a ||| c),
    Nat.mul_comm b, Nat.mul_comm d, Nat.mul_comm (b ||| d)]
  rw [Nat.testBit_mul_pow_two_add b ha i, Nat.testBit_mul_pow_two_add d hc i,
    Nat.testBit_mul_pow_two_add (b ||| d) hac i]
  by_cases h : i < k
  · simp [h, Nat.testBit_or]
  · simp [h, Nat.testBit_or]

theorem lut_expand_le : ∀ c < 100,
    bc_expand_lut (LUT true c) = c / 10 + (c % 10) * 2 ^ 8 := by decide

theorem lut_expand_be : ∀ c < 100,
    bc_expand_lut (LUT false c) = c % 10 + (c / 10) * 2 ^ 8 := by decide

theorem low_byte_of_add (a r : Nat) (ha : a < 2 ^ 8) : (a + r * 2 ^ 8) &&& 255 = a := by
  have e2 : (255 : Nat) = 255 + 0 * 2 ^ 8 := by norm_num
  rw [e2, land_block_split 8 _ _ _ _ ha (by norm_num), Nat.and_zero,
    Nat.and_pow_two_sub_one_eq_mod a 8]
  omega

theorem wordBytes4_assemble (le : Bool) (a b c d : Nat)
    (ha : a < 2 ^ 8) (hb : b < 2 ^ 8) (hc : c < 2 ^ 8) (hd : d < 2 ^ 8) :
    wordBytes4 le (a + b * 2 ^ 8 + c * 2 ^ 16 + d * 2 ^ 24)
      = if le then [a, b, c, d] else [d, c, b, a] := by
  have e1 : a + b * 2 ^ 8 + c * 2 ^ 16 + d * 2 ^ 24
      = a + (b + (c + d * 2 ^ 8) * 2 ^ 8) * 2 ^ 8 := by ring
  have h0 : (a + b * 2 ^ 8 + c * 2 ^ 16 + d * 2 ^ 24) &&& 255 = a := by
    rw [e1, low_byte_of_add a _ ha]
  have hs8 : (a + b * 2 ^ 8 + c * 2 ^ 16 + d * 2 ^ 24) >>> 8
      = b + (c + d * 2 ^ 8) * 2 ^ 8 := by
    rw [e1, shiftRight_add_mul 8 _ _ ha]
  have h1 : ((a + b * 2 ^ 8 + c * 2 ^ 16 + d * 2 ^ 24) >>> 8) &&& 255 = b := by
    rw [hs8, low_byte_of_add b _ hb]
  have e2 : a + b * 2 ^ 8 + c * 2 ^ 16 + d * 2 ^ 24
      = (a + b * 2 ^ 8) + (c + d * 2 ^ 8) * 2 ^ 16 := by ring
  have hs16 : (a + b * 2 ^ 8 + c * 2 ^ 16 + d * 2 ^ 24) >>> 16 = c + d * 2 ^ 8 := by
    rw [e2, shiftRight_add_mul 16 _ _ (by omega)]
  have h2 : ((a + b * 2 ^ 8 + c * 2 ^ 16 + d * 2 ^ 24) >>> 16) &&& 255 = c := by
    rw [hs16, low_byte_of_add c _ hc]
  have e3 : a + b * 2 ^ 8 + c * 2 ^ 16 + d * 2 ^ 24
      = (a + b * 2 ^ 8 + c * 2 ^ 16) + d * 2 ^ 24 := by ring
  have hs24 : (a + b * 2 ^ 8 + c * 2 ^ 16 + d * 2 ^ 24) >>> 24 = d := by
    rw [e3, shiftRight_add_mul 24 _ _ (by omega)]
  have h3 : ((a + b * 2 ^ 8 + c * 2 ^ 16 + d * 2 ^ 24) >>> 24) &&& 255 = d := by
    rw [hs24, Nat.and_pow_two_sub_one_eq_mod d 8]
    omega
  cases le with
  | true => simp only [wordBytes4, if_pos, h0, h1, h2, h3, if_true]
  | false => simp only [wordBytes4, h0, h1, h2, h3, if_false, Bool.false_eq_true, ite_false]

set_option maxHeartbeats 1600000 in
/-- Characterization of `bc_write_bcd_representation`: for any value
below 10000 and either byte order, it writes exactly the four decimal
digits, most significant first. -/
theorem bcd_write_spec (le : Bool) (v : Nat) (hv : v < 10000) :
    bc_write_bcd_representation le v
      = [v / 1000, v / 100 % 10, v / 10 % 10, v % 10] := by
  have hu : v / 100 < 100 := by omega
  have hl : v % 100 < 100 := by omega
  cases le with
  | true =>
    have hE1 := lut_expand_le (v % 100) hl
    have hE2 := lut_expand_le (v / 100) hu
    simp only [bc_write_bcd_representation]
    rw [if_true, hE1, hE2]
    have hsh : (v % 100 / 10 + v % 100 % 10 * 2 ^ 8) <<< 16
        = (v % 100 / 10 + v % 100 % 10 * 2 ^ 8) * 2 ^ 16 := Nat.shiftLeft_eq _ 16
    have hor : (v % 100 / 10 + v % 100 % 10 * 2 ^ 8) * 2 ^ 16
          ||| (v / 100 / 10 + v / 100 % 10 * 2 ^ 8)
        = (v / 100 / 10 + v / 100 % 10 * 2 ^ 8)
          + (v % 100 / 10 + v % 100 % 10 * 2 ^ 8) * 2 ^ 16 := by
      have e1 : (v % 100 / 10 + v % 100 % 10 * 2 ^ 8) * 2 ^ 16
          = 0 + (v % 100 / 10 + v % 100 % 10 * 2 ^ 8) * 2 ^ 16 := by ring
      have e2 : v / 100 / 10 + v / 100 % 10 * 2 ^ 8
          = (v / 100 / 10 + v / 100 % 10 * 2 ^ 8) + 0 * 2 ^ 16 := by ring
      rw [e1, e2, lor_block_split 16 _ _ _ _ (by omega) (by omega)]
      simp [Nat.zero_or, Nat.or_zero]
    rw [hsh, hor]
    have hval : v / 100 / 10 + v / 100 % 10 * 2 ^ 8
          + (v % 100 / 10 + v % 100 % 10 * 2 ^ 8) * 2 ^ 16
        = v / 1000 + (v / 100 % 10) * 2 ^ 8 + (v / 10 % 10) * 2 ^ 16
          + (v % 10) * 2 ^ 24 := by
      have d1 : v / 100 / 10 = v / 1000 := by omega
      have d2 : v % 100 / 10 = v / 10 % 10 := by omega
      have d3 : v % 100 % 10 = v % 10 := by omega
      rw [d1, d2, d3]
      ring
    rw [hval]
    clear hE1 hE2 hsh hor hval
    have hu32 : u32 (v / 1000 + (v / 100 % 10) * 2 ^ 8 + (v / 10 % 10) * 2 ^ 16
        + (v % 10) * 2 ^ 24) = v / 1000 + (v / 100 % 10) * 2 ^ 8 + (v / 10 % 10) * 2 ^ 16
        + (v % 10) * 2 ^ 24 := u32_id _ (by omega)
    have hwb := wordBytes4_assemble true (v / 1000) (v / 100 % 10) (v / 10 % 10) (v % 10)
      (by omega) (by omega) (by omega) (by omega)
    rw [hu32, hwb]
    simp
  | false =>
    have hE1 := lut_expand_be (v % 100) hl
    have hE2 := lut_expand_be (v / 100) hu
    simp only [bc_write_bcd_representation]
    rw [if_neg (show ¬(false = true) by simp), hE1, hE2]
    have hsh : (v / 100 % 10 + v / 100 / 10 * 2 ^ 8) <<< 16
        = (v / 100 % 10 + v / 100 / 10 * 2 ^ 8) * 2 ^ 16 := Nat.shiftLeft_eq _ 16
    have hor : (v / 100 % 10 + v / 100 / 10 * 2 ^ 8) * 2 ^ 16
          ||| (v % 100 % 10 + v % 100 / 10 * 2 ^ 8)
        = (v % 100 % 10 + v % 100 / 10 * 2 ^ 8)
          + (v / 100 % 10 + v / 100 / 10 * 2 ^ 8) * 2 ^ 16 := by
      have e1 : (v / 100 % 10 + v / 100 / 10 * 2 ^ 8) * 2 ^ 16
          = 0 + (v / 100 % 10 + v / 100 / 10 * 2 ^ 8) * 2 ^ 16 := by ring
      have e2 : v % 100 % 10 + v % 100 / 10 * 2 ^ 8
          = (v % 100 % 10 + v % 100 / 10 * 2 ^ 8) + 0 * 2 ^ 16 := by ring
      rw [e1, e2, lor_block_split 16 _ _ _ _ (by omega) (by omega)]
      simp [Nat.zero_or, Nat.or_zero]
    rw [hsh, hor]
    have hval : v % 100 % 10 + v % 100 / 10 * 2 ^ 8
          + (v / 100 % 10 + v / 100 / 10 * 2 ^ 8) * 2 ^ 16
        = v % 10 + (v / 10 % 10) * 2 ^ 8 + (v / 100 % 10) * 2 ^ 16
          + (v / 1000) * 2 ^ 24 := by
      have d1 : v / 100 / 10 = v / 1000 := by omega
      have d2 : v % 100 / 10 = v / 10 % 10 := by omega
      have d3 : v % 100 % 10 = v % 10 := by omega
      rw [d1, d2, d3]
      ring
    rw [hval]
    clear hE1 hE2 hsh hor hval
    have hu32 : u32 (v % 10 + (v / 10 % 10) * 2 ^ 8 + (v / 100 % 10) * 2 ^ 16
        + (v / 1000) * 2 ^ 24) = v % 10 + (v / 10 % 10) * 2 ^ 8 + (v / 100 % 10) * 2 ^ 16
        + (v / 1000) * 2 ^ 24 := u32_id _ (by omega)
    have hwb := wordBytes4_assemble false (v % 10) (v / 10 % 10) (v / 100 % 10) (v / 1000)
      (by omega) (by omega) (by omega) (by omega)
    rw [hu32, hwb]
    simp

/-! ### The standard multiplier: accumulation machinery

The quadratic loop of `bc_standard_mul` accumulates partial products
into an array of 64-bit unsigned slots.  `bc_digits_adjustment` is the
carry-normalization pass; `adjustmentP`, `accAddP`, `innerLoopP`,
`outerStepP`, `mulAddRunP` are the same computations performed with
exact (unbounded) additions: agreement of the two is precisely absence
of unsigned wraparound. -/

/-- `bc_digits_adjustment`: for each slot except the last, add the
quotient by `10^W` to the next slot (a 64-bit addition) and reduce the
current slot modulo `10^W`. -/
def bc_digits_adjustment : List Nat → List Nat
  | x :: y :: rest =>
      x % BC_MUL_UINT_OVERFLOW
        :: bc_digits_adjustment (u64 (y + x / BC_MUL_UINT_OVERFLOW) :: rest)
  | l => l
termination_by l => l.length

/-- Carry normalization with exact additions. -/
def adjustmentP : List Nat → List Nat
  | x :: y :: rest =>
      x % BC_MUL_UINT_OVERFLOW
        :: adjustmentP ((y + x / BC_MUL_UINT_OVERFLOW) :: rest)
  | l => l
termination_by l => l.length

/-- Decidable check that every carry-propagation addition of one
adjustment pass stays within the 64-bit range. -/
def adjustNoOverflow : List Nat → Bool
  | x :: y :: rest =>
      decide (y + x / BC_MUL_UINT_OVERFLOW ≤ UINT_MAX)
        && adjustNoOverflow ((y + x / BC_MUL_UINT_OVERFLOW) :: rest)
  | _ => true
termination_by l => l.length

/-- `prod_uint[p] += t` with 64-bit wraparound. -/
def accAdd : List Nat → Nat → Nat → List Nat
  | [], _, _ => []
  | x :: rest, 0, t => u64 (x + t) :: rest
  | x :: rest, p + 1, t => x :: accAdd rest p t

/-- `prod_uint[p] += t` with an exact addition. -/
def accAddP : List Nat → Nat → Nat → List Nat
  | [], _, _ => []
  | x :: rest, 0, t => (x + t) :: rest
  | x :: rest, p + 1, t => x :: accAddP rest p t

/-- The inner loop
`for j: prod_uint[i + j] += n1_uint[i] * n2_uint[j]`, with `p`
starting at `i`. -/
def innerLoop (x : Nat) : List Nat → Nat → List Nat → List Nat
  | [], _, acc => acc
  | y :: ys, p, acc => innerLoop x ys (p + 1) (accAdd acc p (u64 (x * y)))

/-- The inner loop with exact arithmetic. -/
def innerLoopP (x : Nat) : List Nat → Nat → List Nat → List Nat
  | [], _, acc => acc
  | y :: ys, p, acc => innerLoopP x ys (p + 1) (accAddP acc p (x * y))

/-- One iteration of the outer loop of the multiply-and-add phase of
`bc_standard_mul`: a forced carry normalization when `count` has
reached `BC_MUL_MAX_ADD_COUNT` (resetting `count`), the `count++`, and
then the inner loop over row `i`. -/
def outerStep (n1u n2u : List Nat) (i : Nat) (st : List Nat × Nat) : List Nat × Nat :=
  let acc := if BC_MUL_MAX_ADD_COUNT ≤ st.2 then bc_digits_adjustment st.1 else st.1
  let count := if BC_MUL_MAX_ADD_COUNT ≤ st.2 then 0 else st.2
  (innerLoop (n1u.getD i 0) n2u i acc, count + 1)

/-- `outerStep` with exact arithmetic. -/
def outerStepP (n1u n2u : List Nat) (i : Nat) (st : List Nat × Nat) : List Nat × Nat :=
  let acc := if BC_MUL_MAX_ADD_COUNT ≤ st.2 then adjustmentP st.1 else st.1
  let count := if BC_MUL_MAX_ADD_COUNT ≤ st.2 then 0 else st.2
  (innerLoopP (n1u.getD i 0) n2u i acc, count + 1)

/-- Accumulator and counter after `k` outer iterations, starting from
the zero-initialized accumulator of `P = prod_arr_size` slots. -/
def mulAddRun (n1u n2u : List Nat) (P : Nat) : Nat → List Nat × Nat
  | 0 => (List.replicate P 0, 0)
  | k + 1 => outerStep n1u n2u k (mulAddRun n1u n2u P k)

/-- `mulAddRun` with exact arithmetic. -/
def mulAddRunP (n1u n2u : List Nat) (P : Nat) : Nat → List Nat × Nat
  | 0 => (List.replicate P 0, 0)
  | k + 1 => outerStepP n1u n2u k (mulAddRunP n1u n2u P k)

/-- Accumulator in the middle of outer iteration `k`: after the
conditional adjustment and the first `j` inner multiply-adds. -/
def mulAddPartial (n1u n2u : List Nat) (P k j : Nat) : List Nat :=
  let st := mulAddRun n1u n2u P k
  let acc := if BC_MUL_MAX_ADD_COUNT ≤ st.2 then bc_digits_adjustment st.1 else st.1
  innerLoop (n1u.getD k 0) (n2u.take j) k acc

/-- `mulAddPartial` with exact arithmetic. -/
def mulAddPartialP (n1u n2u : List Nat) (P k j : Nat) : List Nat :=
  let st := mulAddRunP n1u n2u P k
  let acc := if BC_MUL_MAX_ADD_COUNT ≤ st.2 then adjustmentP st.1 else st.1
  innerLoopP (n1u.getD k 0) (n2u.take j) k acc

/-- The digit-emission bulk loop of `bc_standard_mul` for limbs
`0 .. k-1`, writing eight digits per limb (two
`bc_write_bcd_representation` calls) at descending buffer positions;
in the resulting list the highest of these limbs comes first. -/
def emitBulk (le : Bool) (acc : List Nat) : Nat → List Nat
  | 0 => []
  | k + 1 =>
      (bc_write_bcd_representation le (acc.getD k 0 / 10000)
        ++ bc_write_bcd_representation le (acc.getD k 0 % 10000))
        ++ emitBulk le acc k

/-- `bc_standard_mul`: schoolbook multiplication over packed limbs.
`n1`, `n2` are the operand digit buffers (most significant digit
first, `n1len`/`n2len` digits). -/
def bc_standard_mul (le : Bool) (n1 : List Nat) (n1len : Nat) (n2 : List Nat)
    (n2len : Nat) : List Nat :=
  let prodlen := n1len + n2len
  let n1_arr_size := (n1len + BC_MUL_UINT_DIGITS - 1) / BC_MUL_UINT_DIGITS
  let n2_arr_size := (n2len + BC_MUL_UINT_DIGITS - 1) / BC_MUL_UINT_DIGITS
  let prod_arr_size := n1_arr_size + n2_arr_size - 1
  let n1_uint := bc_convert_to_uint le n1.reverse n1len
  let n2_uint := bc_convert_to_uint le n2.reverse n2len
  let st := mulAddRun n1_uint n2_uint prod_arr_size n1_arr_size
  let prod_uint := bc_digits_adjustment st.1
  bc_backfill_digits (prod_uint.getD (prod_arr_size - 1) 0)
      (prodlen - BC_MUL_UINT_DIGITS * (prod_arr_size - 1))
    ++ emitBulk le prod_uint (prod_arr_size - 1)

theorem accAddP_length (l : List Nat) (p t : Nat) : (accAddP l p t).length = l.length := by
  induction l generalizing p with
  | nil => rfl
  | cons x rest ih =>
    cases p with
    | zero => rfl
    | succ p => simp [accAddP, ih p]

theorem accAdd_length (l : List Nat) (p t : Nat) : (accAdd l p t).length = l.length := by
  induction l generalizing p with
  | nil => rfl
  | cons x rest ih =>
    cases p with
    | zero => rfl
    | succ p => simp [accAdd, ih p]

theorem accAddP_getD_eq (l : List Nat) (p t : Nat) (hp : p < l.length) :
    (accAddP l p t).getD p 0 = l.getD p 0 + t := by
  induction l generalizing p with
  | nil => simp at hp
  | cons x rest ih =>
    cases p with
    | zero => rfl
    | succ p =>
      simp only [accAddP, List.getD_cons_succ]
      exact ih p (by simpa using hp)

theorem accAddP_getD_ne (l : List Nat) (p t q : Nat) (hne : q ≠ p) :
    (accAddP l p t).getD q 0 = l.getD q 0 := by
  induction l generalizing p q with
  | nil => rfl
  | cons x rest ih =>
    cases p with
    | zero =>
      cases q with
      | zero => exact absurd rfl hne
      | succ q => rfl
    | succ p =>
      cases q with
      | zero => rfl
      | succ q =>
        simp only [accAddP, List.getD_cons_succ]
        exact ih p q (by omega)

theorem accAddP_baseVal (b : Nat) (l : List Nat) (p t : Nat) (hp : p < l.length) :
    baseVal b (accAddP l p t) = baseVal b l + t * b ^ p := by
  induction l generalizing p with
  | nil => simp at hp
  | cons x rest ih =>
    cases p with
    | zero =>
      show x + t + b * baseVal b rest = x + b * baseVal b rest + t * b ^ 0
      ring
    | succ p =>
      show x + b * baseVal b (accAddP rest p t) = x + b * baseVal b rest + t * b ^ (p + 1)
      rw [ih p (by simpa using hp)]
      ring

theorem accAdd_eq_accAddP (l : List Nat) (p t : Nat)
    (h : l.getD p 0 + t ≤ UINT_MAX) :
    accAdd l p t = accAddP l p t := by
  induction l generalizing p with
  | nil => rfl
  | cons x rest ih =>
    cases p with
    | zero =>
      show u64 (x + t) :: rest = (x + t) :: rest
      rw [u64_id (x + t) (by
        simp only [List.getD_cons_zero] at h
        simp only [UINT_MAX, UINT_LIMIT] at h
        omega)]
    | succ p =>
      show x :: accAdd rest p t = x :: accAddP rest p t
      rw [ih p (by simpa using h)]

theorem innerLoopP_length (x : Nat) (ys : List Nat) (p : Nat) (acc : List Nat) :
    (innerLoopP x ys p acc).length = acc.length := by
  induction ys generalizing p acc with
  | nil => rfl
  | cons y ys ih =>
    show (innerLoopP x ys (p + 1) (accAddP acc p (x * y))).length = acc.length
    rw [ih (p + 1) _, accAddP_length]

theorem innerLoopP_getD (x : Nat) (ys : List Nat) (p : Nat) (acc : List Nat)
    (hlen : p + ys.length ≤ acc.length) (idx : Nat) :
    (innerLoopP x ys p acc).getD idx 0
      = acc.getD idx 0
        + (if p ≤ idx ∧ idx < p + ys.length then x * ys.getD (idx - p) 0 else 0) := by
  induction ys generalizing p acc with
  | nil =>
    simp only [innerLoopP, List.length_nil, Nat.add_zero]
    have : ¬(p ≤ idx ∧ idx < p) := by omega
    simp [this]
  | cons y ys ih =>
    show (innerLoopP x ys (p + 1) (accAddP acc p (x * y))).getD idx 0 = _
    have hlen' : p + 1 + ys.length ≤ (accAddP acc p (x * y)).length := by
      rw [accAddP_length]
      simp only [List.length_cons] at hlen
      omega
    rw [ih (p + 1) _ hlen' ]
    by_cases hip : idx = p
    · subst hip
      rw [accAddP_getD_eq acc idx (x * y) (by simp only [List.length_cons] at hlen; omega)]
      have h1 : ¬(idx + 1 ≤ idx ∧ idx < idx + 1 + ys.length) := by omega
      have h2 : idx ≤ idx ∧ idx < idx + (y :: ys).length := by
        simp only [List.length_cons]
        omega
      simp only [if_neg h1, if_pos h2, Nat.sub_self, List.getD_cons_zero]
      ring
    · rw [accAddP_getD_ne acc p (x * y) idx hip]
      by_cases hin : p + 1 ≤ idx ∧ idx < p + 1 + ys.length
      · have h2 : p ≤ idx ∧ idx < p + (y :: ys).length := by
          simp only [List.length_cons]
          omega
        rw [if_pos hin, if_pos h2]
        have hsub : idx - p = (idx - (p + 1)) + 1 := by omega
        rw [hsub, List.getD_cons_succ]
      · have h2 : ¬(p ≤ idx ∧ idx < p + (y :: ys).length) := by
          simp only [List.length_cons]
          omega
        rw [if_neg hin, if_neg h2]

theorem innerLoopP_baseVal (b : Nat) (x : Nat) (ys : List Nat) (p : Nat)
    (acc : List Nat) (hlen : p + ys.length ≤ acc.length) :
    baseVal b (innerLoopP x ys p acc)
      = baseVal b acc + x * baseVal b ys * b ^ p := by
  induction ys generalizing p acc with
  | nil => simp [innerLoopP, baseVal]
  | cons y ys ih =>
    show baseVal b (innerLoopP x ys (p + 1) (accAddP acc p (x * y))) = _
    have hlen' : p + 1 + ys.length ≤ (accAddP acc p (x * y)).length := by
      rw [accAddP_length]
      simp only [List.length_cons] at hlen
      omega
    rw [ih (p + 1) _ hlen']
    rw [accAddP_baseVal b acc p (x * y) (by simp only [List.length_cons] at hlen; omega)]
    show _ = baseVal b acc + x * (y + b * baseVal b ys) * b ^ p
    ring

theorem getD_le_of_forall_lt (l : List Nat) (i B : Nat) (hB : 0 < B)
    (h : ∀ y ∈ l, y < B) : l.getD i 0 ≤ B - 1 := by
  rw [List.getD_eq_getElem?_getD]
  by_cases hi : i < l.length
  · rw [List.getElem?_eq_getElem hi]
    have := h l[i] (List.getElem_mem hi)
    simp only [Option.getD_some]
    omega
  · rw [List.getElem?_eq_none (by omega)]
    simp only [Option.getD_none]
    omega

theorem innerLoop_eq_innerLoopP (x : Nat) (ys : List Nat) (p : Nat) (acc : List Nat)
    (S : Nat) (hx : x < BC_MUL_UINT_OVERFLOW) (hys : ∀ y ∈ ys, y < BC_MUL_UINT_OVERFLOW)
    (hS : S + (BC_MUL_UINT_OVERFLOW - 1) * (BC_MUL_UINT_OVERFLOW - 1) ≤ UINT_MAX)
    (hbound : ∀ idx, p ≤ idx → acc.getD idx 0 ≤ S) :
    innerLoop x ys p acc = innerLoopP x ys p acc := by
  induction ys generalizing p acc with
  | nil => rfl
  | cons y ys ih =>
    have hy : y < BC_MUL_UINT_OVERFLOW := hys y (by simp)
    have hxy : u64 (x * y) = x * y := by
      apply u64_id
      calc x * y < BC_MUL_UINT_OVERFLOW * BC_MUL_UINT_OVERFLOW :=
            Nat.mul_lt_mul_of_lt_of_le hx (le_of_lt hy) (by decide)
        _ < 2 ^ 64 := by decide
    have hadd : accAdd acc p (x * y) = accAddP acc p (x * y) := by
      apply accAdd_eq_accAddP
      have h1 : acc.getD p 0 ≤ S := hbound p (le_refl p)
      have h2 : x * y ≤ (BC_MUL_UINT_OVERFLOW - 1) * (BC_MUL_UINT_OVERFLOW - 1) :=
        Nat.mul_le_mul (by omega) (by omega)
      omega
    show innerLoop x ys (p + 1) (accAdd acc p (u64 (x * y))) = _
    rw [hxy, hadd]
    exact ih (p + 1) (accAddP acc p (x * y)) (fun y' hy' => hys y' (by simp [hy']))
      (fun idx hidx => by
        rw [accAddP_getD_ne acc p (x * y) idx (by omega)]
        exact hbound idx (by omega))

theorem adjustmentP_cons_cons (x y : Nat) (rest : List Nat) :
    adjustmentP (x :: y :: rest)
      = x % BC_MUL_UINT_OVERFLOW
        :: adjustmentP ((y + x / BC_MUL_UINT_OVERFLOW) :: rest) := by
  rw [adjustmentP]

theorem adjustmentP_singleton (x : Nat) : adjustmentP [x] = [x] := by
  rw [adjustmentP]
  intro a b c h
  simp at h

theorem adjustment_cons_cons (x y : Nat) (rest : List Nat) :
    bc_digits_adjustment (x :: y :: rest)
      = x % BC_MUL_UINT_OVERFLOW
        :: bc_digits_adjustment (u64 (y + x / BC_MUL_UINT_OVERFLOW) :: rest) := by
  rw [bc_digits_adjustment]

theorem adjustment_singleton (x : Nat) : bc_digits_adjustment [x] = [x] := by
  rw [bc_digits_adjustment]
  intro a b c h
  simp at h

theorem adjustNoOverflow_cons_cons (x y : Nat) (rest : List Nat) :
    adjustNoOverflow (x :: y :: rest)
      = (decide (y + x / BC_MUL_UINT_OVERFLOW ≤ UINT_MAX)
          && adjustNoOverflow ((y + x / BC_MUL_UINT_OVERFLOW) :: rest)) := by
  rw [adjustNoOverflow]

theorem adjustmentP_length (t : List Nat) : ∀ x : Nat,
    (adjustmentP (x :: t)).length = t.length + 1 := by
  induction t with
  | nil =>
    intro x
    rw [adjustmentP_singleton]
    rfl
  | cons y rest ih =>
    intro x
    rw [adjustmentP_cons_cons]
    simp only [List.length_cons, ih (y + x / BC_MUL_UINT_OVERFLOW)]

theorem adjustmentP_baseVal (t : List Nat) : ∀ x : Nat,
    baseVal BC_MUL_UINT_OVERFLOW (adjustmentP (x :: t))
      = baseVal BC_MUL_UINT_OVERFLOW (x :: t) := by
  induction t with
  | nil =>
    intro x
    rw [adjustmentP_singleton]
  | cons y rest ih =>
    intro x
    rw [adjustmentP_cons_cons]
    show x % BC_MUL_UINT_OVERFLOW + BC_MUL_UINT_OVERFLOW
        * baseVal BC_MUL_UINT_OVERFLOW (adjustmentP ((y + x / BC_MUL_UINT_OVERFLOW) :: rest))
      = x + BC_MUL_UINT_OVERFLOW * (y + BC_MUL_UINT_OVERFLOW * baseVal BC_MUL_UINT_OVERFLOW rest)
    rw [ih (y + x / BC_MUL_UINT_OVERFLOW)]
    show _ + BC_MUL_UINT_OVERFLOW * (y + x / BC_MUL_UINT_OVERFLOW
        + BC_MUL_UINT_OVERFLOW * baseVal BC_MUL_UINT_OVERFLOW rest) = _
    have hdm := Nat.div_add_mod x BC_MUL_UINT_OVERFLOW
    simp only [BC_MUL_UINT_OVERFLOW] at *
    omega

theorem adjustmentP_bounds (t : List Nat) : ∀ x : Nat, ∀ idx, idx < t.length →
    (adjustmentP (x :: t)).getD idx 0 < BC_MUL_UINT_OVERFLOW := by
  induction t with
  | nil =>
    intro x idx h
    simp at h
  | cons y rest ih =>
    intro x idx h
    rw [adjustmentP_cons_cons]
    cases idx with
    | zero =>
      simp only [List.getD_cons_zero]
      exact Nat.mod_lt x (by decide)
    | succ idx =>
      simp only [List.getD_cons_succ]
      exact ih (y + x / BC_MUL_UINT_OVERFLOW) idx (by simpa using h)

theorem adjustmentP_last (t : List Nat) : ∀ x : Nat,
    (adjustmentP (x :: t)).getD t.length 0
      = baseVal BC_MUL_UINT_OVERFLOW (x :: t) / BC_MUL_UINT_OVERFLOW ^ t.length := by
  induction t with
  | nil =>
    intro x
    rw [adjustmentP_singleton]
    simp [baseVal]
  | cons y rest ih =>
    intro x
    rw [adjustmentP_cons_cons]
    simp only [List.length_cons, List.getD_cons_succ]
    rw [ih (y + x / BC_MUL_UINT_OVERFLOW)]
    have hstep : baseVal BC_MUL_UINT_OVERFLOW (x :: y :: rest) / BC_MUL_UINT_OVERFLOW
        = baseVal BC_MUL_UINT_OVERFLOW ((y + x / BC_MUL_UINT_OVERFLOW) :: rest) := by
      show (x + BC_MUL_UINT_OVERFLOW * (y + BC_MUL_UINT_OVERFLOW
          * baseVal BC_MUL_UINT_OVERFLOW rest)) / BC_MUL_UINT_OVERFLOW
        = y + x / BC_MUL_UINT_OVERFLOW
          + BC_MUL_UINT_OVERFLOW * baseVal BC_MUL_UINT_OVERFLOW rest
      rw [Nat.add_mul_div_left x _ (by decide : 0 < BC_MUL_UINT_OVERFLOW)]
      omega
    rw [← hstep]
    rw [pow_succ, Nat.mul_comm (BC_MUL_UINT_OVERFLOW ^ rest.length) BC_MUL_UINT_OVERFLOW,
      ← Nat.div_div_eq_div_mul]

theorem adjustment_eq_adjustmentP (t : List Nat) : ∀ x : Nat,
    adjustNoOverflow (x :: t) = true →
    bc_digits_adjustment (x :: t) = adjustmentP (x :: t) := by
  induction t with
  | nil =>
    intro x _
    rw [adjustment_singleton, adjustmentP_singleton]
  | cons y rest ih =>
    intro x h
    rw [adjustNoOverflow_cons_cons, Bool.and_eq_true, decide_eq_true_eq] at h
    rw [adjustment_cons_cons, adjustmentP_cons_cons]
    rw [u64_id (y + x / BC_MUL_UINT_OVERFLOW) (by
      simp only [UINT_MAX, UINT_LIMIT] at h
      omega)]
    rw [ih (y + x / BC_MUL_UINT_OVERFLOW) h.2]

theorem adjustNoOverflow_of_bounded (M C : Nat)
    (hMC : (M + C) / BC_MUL_UINT_OVERFLOW ≤ C) (hU : M + C ≤ UINT_MAX)
    (t : List Nat) : ∀ x : Nat, (∀ d ∈ t, d ≤ M) → x ≤ M + C →
    adjustNoOverflow (x :: t) = true := by
  induction t with
  | nil =>
    intro x _ _
    rw [adjustNoOverflow]
    intro a b c h
    simp at h
  | cons y rest ih =>
    intro x hmem hx
    rw [adjustNoOverflow_cons_cons, Bool.and_eq_true, decide_eq_true_eq]
    have hy : y ≤ M := hmem y (by simp)
    have hcarry : x / BC_MUL_UINT_OVERFLOW ≤ C := by
      calc x / BC_MUL_UINT_OVERFLOW ≤ (M + C) / BC_MUL_UINT_OVERFLOW :=
            Nat.div_le_div_right hx
        _ ≤ C := hMC
    refine ⟨by omega, ?_⟩
    exact ih (y + x / BC_MUL_UINT_OVERFLOW) (fun d hd => hmem d (by simp [hd]))
      (by omega)

theorem getD_default_of_le (l : List Nat) (i : Nat) (h : l.length ≤ i) :
    l.getD i 0 = 0 := by
  rw [List.getD_eq_getElem?_getD, List.getElem?_eq_none h]
  rfl

theorem forall_mem_le_of_getD (l : List Nat) (M : Nat)
    (h : ∀ idx, idx < l.length → l.getD idx 0 ≤ M) : ∀ d ∈ l, d ≤ M := by
  intro d hd
  obtain ⟨i, hi, rfl⟩ := List.mem_iff_getElem.mp hd
  have := h i hi
  rwa [List.getD_eq_getElem?_getD, List.getElem?_eq_getElem hi, Option.getD_some] at this

theorem baseVal_replicate_zero (b P : Nat) : baseVal b (List.replicate P 0) = 0 := by
  induction P with
  | zero => rfl
  | succ n ih => simp [List.replicate, baseVal, ih]

theorem getD_replicate_zero (P idx : Nat) : (List.replicate P (0 : Nat)).getD idx 0 = 0 := by
  induction P generalizing idx with
  | zero => rfl
  | succ n ih =>
    cases idx with
    | zero => rfl
    | succ idx => simpa [List.replicate] using ih idx

theorem baseVal_take_le (b : Nat) (l : List Nat) (k : Nat) :
    baseVal b (l.take k) ≤ baseVal b l := by
  conv_rhs => rw [← List.take_append_drop k l]
  rw [baseVal_append]
  omega

theorem baseVal_take_succ (b : Nat) (l : List Nat) (k : Nat) (hk : k < l.length) :
    baseVal b (l.take (k + 1)) = baseVal b (l.take k) + l.getD k 0 * b ^ k := by
  rw [List.take_succ, baseVal_append]
  rw [List.getElem?_eq_getElem hk]
  have hlen : (l.take k).length = k := by
    simp only [List.length_take]
    omega
  rw [hlen]
  show _ + b ^ k * (l[k] + b * 0) = _
  rw [List.getD_eq_getElem?_getD, List.getElem?_eq_getElem hk, Option.getD_some]
  ring

/-- Bundled facts about one pure carry-normalization pass over a
non-empty accumulator: length and represented value are preserved, all
slots but the last end up below `10^W`, and the last slot holds the
full quotient of the value by `(10^W)^(n-1)` (undrained). -/
theorem adjustmentP_spec (l : List Nat) (hl : 1 ≤ l.length) :
    (adjustmentP l).length = l.length
    ∧ baseVal BC_MUL_UINT_OVERFLOW (adjustmentP l) = baseVal BC_MUL_UINT_OVERFLOW l
    ∧ (∀ idx, idx + 1 < l.length → (adjustmentP l).getD idx 0 < BC_MUL_UINT_OVERFLOW)
    ∧ (adjustmentP l).getD (l.length - 1) 0
        = baseVal BC_MUL_UINT_OVERFLOW l / BC_MUL_UINT_OVERFLOW ^ (l.length - 1) := by
  cases l with
  | nil => simp at hl
  | cons x t =>
    refine ⟨adjustmentP_length t x, adjustmentP_baseVal t x, ?_, ?_⟩
    · intro idx hidx
      exact adjustmentP_bounds t x idx (by simpa using hidx)
    · have h := adjustmentP_last t x
      simpa using h

/-- When every slot is bounded by `M` with enough headroom, the 64-bit
adjustment pass computes exactly the pure one. -/
theorem adjustment_eq_of_bounded (l : List Nat) (hl : 1 ≤ l.length) (M C : Nat)
    (hMC : (M + C) / BC_MUL_UINT_OVERFLOW ≤ C) (hU : M + C ≤ UINT_MAX)
    (hmem : ∀ d ∈ l, d ≤ M) :
    bc_digits_adjustment l = adjustmentP l := by
  cases l with
  | nil => simp at hl
  | cons x t =>
    apply adjustment_eq_adjustmentP
    apply adjustNoOverflow_of_bounded M C hMC hU
    · exact fun d hd => hmem d (by simp [hd])
    · have := hmem x (by simp)
      omega

/-- One outer iteration preserves the loop invariant of the
multiply-and-add phase, and its 64-bit arithmetic agrees with exact
arithmetic.  `(B-1) + count * (B-1)^2` bounds every slot but the last;
the last slot is bounded through the represented value. -/
theorem outerStep_invariant (n1u n2u : List Nat) (P k : Nat)
    (hP : P + 1 = n1u.length + n2u.length)
    (hb1 : ∀ z ∈ n1u, z < BC_MUL_UINT_OVERFLOW)
    (hb2 : ∀ z ∈ n2u, z < BC_MUL_UINT_OVERFLOW)
    (hn2 : 1 ≤ n2u.length)
    (hk : k < n1u.length)
    (acc : List Nat) (c : Nat)
    (hlen : acc.length = P)
    (hc : c ≤ BC_MUL_MAX_ADD_COUNT)
    (hval : baseVal BC_MUL_UINT_OVERFLOW acc
      = baseVal BC_MUL_UINT_OVERFLOW (n1u.take k) * baseVal BC_MUL_UINT_OVERFLOW n2u)
    (hbd : ∀ idx, idx + 1 < P → acc.getD idx 0
      ≤ (BC_MUL_UINT_OVERFLOW - 1)
        + c * ((BC_MUL_UINT_OVERFLOW - 1) * (BC_MUL_UINT_OVERFLOW - 1))) :
    outerStep n1u n2u k (acc, c) = outerStepP n1u n2u k (acc, c)
    ∧ (outerStepP n1u n2u k (acc, c)).1.length = P
    ∧ (outerStepP n1u n2u k (acc, c)).2 ≤ BC_MUL_MAX_ADD_COUNT
    ∧ baseVal BC_MUL_UINT_OVERFLOW (outerStepP n1u n2u k (acc, c)).1
        = baseVal BC_MUL_UINT_OVERFLOW (n1u.take (k + 1))
          * baseVal BC_MUL_UINT_OVERFLOW n2u
    ∧ (∀ idx, idx + 1 < P → (outerStepP n1u n2u k (acc, c)).1.getD idx 0
        ≤ (BC_MUL_UINT_OVERFLOW - 1)
          + (outerStepP n1u n2u k (acc, c)).2
            * ((BC_MUL_UINT_OVERFLOW - 1) * (BC_MUL_UINT_OVERFLOW - 1))) := by
  have hBpos : (0 : Nat) < BC_MUL_UINT_OVERFLOW := by decide
  have hP1 : 1 ≤ P := by omega
  have hkP : k + n2u.length ≤ P := by omega
  have hx : n1u.getD k 0 ≤ BC_MUL_UINT_OVERFLOW - 1 :=
    getD_le_of_forall_lt n1u k _ hBpos hb1
  have hn2bd : ∀ j, n2u.getD j 0 ≤ BC_MUL_UINT_OVERFLOW - 1 :=
    fun j => getD_le_of_forall_lt n2u j _ hBpos hb2
  have hvlt : baseVal BC_MUL_UINT_OVERFLOW acc < BC_MUL_UINT_OVERFLOW ^ (P + 1) := by
    have h1 := baseVal_take_le BC_MUL_UINT_OVERFLOW n1u k
    have h2 := baseVal_lt BC_MUL_UINT_OVERFLOW n1u hBpos hb1
    have h3 := baseVal_lt BC_MUL_UINT_OVERFLOW n2u hBpos hb2
    calc baseVal BC_MUL_UINT_OVERFLOW acc
        = baseVal BC_MUL_UINT_OVERFLOW (n1u.take k)
          * baseVal BC_MUL_UINT_OVERFLOW n2u := hval
      _ < BC_MUL_UINT_OVERFLOW ^ n1u.length * BC_MUL_UINT_OVERFLOW ^ n2u.length := by
          exact Nat.mul_lt_mul_of_lt_of_le (by omega) (le_of_lt h3)
            (Nat.pos_pow_of_pos _ hBpos)
      _ = BC_MUL_UINT_OVERFLOW ^ (n1u.length + n2u.length) := by rw [← pow_add]
      _ = BC_MUL_UINT_OVERFLOW ^ (P + 1) := by rw [hP]
  have hexp : BC_MUL_UINT_OVERFLOW ^ (P + 1)
      = (BC_MUL_UINT_OVERFLOW * BC_MUL_UINT_OVERFLOW)
        * BC_MUL_UINT_OVERFLOW ^ (P - 1) := by
    have h : P + 1 = 1 + 1 + (P - 1) := by omega
    rw [h, pow_add, pow_add, pow_one]
  have hdivlast : baseVal BC_MUL_UINT_OVERFLOW acc / BC_MUL_UINT_OVERFLOW ^ (P - 1)
      < BC_MUL_UINT_OVERFLOW * BC_MUL_UINT_OVERFLOW :=
    Nat.div_lt_of_lt_mul (by rw [Nat.mul_comm, ← hexp]; exact hvlt)
  have hlast : acc.getD (P - 1) 0 < BC_MUL_UINT_OVERFLOW * BC_MUL_UINT_OVERFLOW := by
    have h4 := getD_mul_pow_le_baseVal BC_MUL_UINT_OVERFLOW acc (P - 1)
    have h5 : acc.getD (P - 1) 0 * BC_MUL_UINT_OVERFLOW ^ (P - 1)
        < (BC_MUL_UINT_OVERFLOW * BC_MUL_UINT_OVERFLOW)
          * BC_MUL_UINT_OVERFLOW ^ (P - 1) := by
      rw [← hexp]
      exact lt_of_le_of_lt h4 hvlt
    exact lt_of_mul_lt_mul_right h5 (Nat.zero_le _)
  have hstep_add : ∀ s add cnt : Nat,
      s ≤ (BC_MUL_UINT_OVERFLOW - 1)
        + cnt * ((BC_MUL_UINT_OVERFLOW - 1) * (BC_MUL_UINT_OVERFLOW - 1)) →
      add ≤ (BC_MUL_UINT_OVERFLOW - 1) * (BC_MUL_UINT_OVERFLOW - 1) →
      s + add ≤ (BC_MUL_UINT_OVERFLOW - 1)
        + (cnt + 1) * ((BC_MUL_UINT_OVERFLOW - 1) * (BC_MUL_UINT_OVERFLOW - 1)) := by
    intro s add cnt h1 h2
    calc s + add ≤ ((BC_MUL_UINT_OVERFLOW - 1)
          + cnt * ((BC_MUL_UINT_OVERFLOW - 1) * (BC_MUL_UINT_OVERFLOW - 1)))
          + (BC_MUL_UINT_OVERFLOW - 1) * (BC_MUL_UINT_OVERFLOW - 1) :=
            Nat.add_le_add h1 h2
      _ = (BC_MUL_UINT_OVERFLOW - 1)
          + (cnt + 1) * ((BC_MUL_UINT_OVERFLOW - 1) * (BC_MUL_UINT_OVERFLOW - 1)) := by
            ring
  by_cases hadj : BC_MUL_MAX_ADD_COUNT ≤ c
  · -- forced adjustment before this row
    obtain ⟨hal, hav, hab, haL⟩ := adjustmentP_spec acc (by omega)
    rw [hlen] at haL hab
    have hmemM : ∀ d ∈ acc, d ≤ (BC_MUL_UINT_OVERFLOW - 1)
        + BC_MUL_MAX_ADD_COUNT
          * ((BC_MUL_UINT_OVERFLOW - 1) * (BC_MUL_UINT_OVERFLOW - 1)) := by
      apply forall_mem_le_of_getD
      intro idx hidx
      by_cases hI : idx + 1 < P
      · calc acc.getD idx 0 ≤ (BC_MUL_UINT_OVERFLOW - 1)
              + c * ((BC_MUL_UINT_OVERFLOW - 1) * (BC_MUL_UINT_OVERFLOW - 1)) :=
                hbd idx hI
          _ ≤ (BC_MUL_UINT_OVERFLOW - 1) + BC_MUL_MAX_ADD_COUNT
              * ((BC_MUL_UINT_OVERFLOW - 1) * (BC_MUL_UINT_OVERFLOW - 1)) := by
                have := Nat.mul_le_mul_right
                  ((BC_MUL_UINT_OVERFLOW - 1) * (BC_MUL_UINT_OVERFLOW - 1)) hc
                omega
      · have hidx' : idx = P - 1 := by omega
        subst hidx'
        have hBB : BC_MUL_UINT_OVERFLOW * BC_MUL_UINT_OVERFLOW
            ≤ (BC_MUL_UINT_OVERFLOW - 1) + BC_MUL_MAX_ADD_COUNT
              * ((BC_MUL_UINT_OVERFLOW - 1) * (BC_MUL_UINT_OVERFLOW - 1)) := by decide
        omega
    have hadjeq : bc_digits_adjustment acc = adjustmentP acc :=
      adjustment_eq_of_bounded acc (by omega) _ 200000000000
        (by decide) (by decide) hmemM
    have hS3 : ∀ idx, k ≤ idx → (adjustmentP acc).getD idx 0
        ≤ (BC_MUL_UINT_OVERFLOW - 1) + (BC_MUL_MAX_ADD_COUNT - 1)
          * ((BC_MUL_UINT_OVERFLOW - 1) * (BC_MUL_UINT_OVERFLOW - 1)) := by
      intro idx _
      by_cases hI : idx + 1 < P
      · have := hab idx (by omega)
        omega
      · by_cases hIlen : idx < P
        · have hidx' : idx = P - 1 := by omega
          subst hidx'
          rw [haL]
          have hBB : BC_MUL_UINT_OVERFLOW * BC_MUL_UINT_OVERFLOW
              ≤ (BC_MUL_UINT_OVERFLOW - 1) + (BC_MUL_MAX_ADD_COUNT - 1)
                * ((BC_MUL_UINT_OVERFLOW - 1) * (BC_MUL_UINT_OVERFLOW - 1)) := by decide
          omega
        · rw [getD_default_of_le _ _ (by omega)]
          omega
    have hinner : innerLoop (n1u.getD k 0) n2u k (adjustmentP acc)
        = innerLoopP (n1u.getD k 0) n2u k (adjustmentP acc) := by
      apply innerLoop_eq_innerLoopP _ _ _ _
        ((BC_MUL_UINT_OVERFLOW - 1) + (BC_MUL_MAX_ADD_COUNT - 1)
          * ((BC_MUL_UINT_OVERFLOW - 1) * (BC_MUL_UINT_OVERFLOW - 1)))
        (by omega) hb2 (by decide) hS3
    have hstepP : outerStepP n1u n2u k (acc, c)
        = (innerLoopP (n1u.getD k 0) n2u k (adjustmentP acc), 0 + 1) := by
      simp only [outerStepP]
      rw [if_pos hadj, if_pos hadj]
    have hstep : outerStep n1u n2u k (acc, c)
        = (innerLoop (n1u.getD k 0) n2u k (bc_digits_adjustment acc), 0 + 1) := by
      simp only [outerStep]
      rw [if_pos hadj, if_pos hadj]
    have hlen' : k + n2u.length ≤ (adjustmentP acc).length := by
      rw [hal, hlen]
      exact hkP
    refine ⟨?_, ?_, ?_, ?_, ?_⟩
    · rw [hstep, hstepP, hadjeq, hinner]
    · rw [hstepP]
      show (innerLoopP (n1u.getD k 0) n2u k (adjustmentP acc)).length = P
      rw [innerLoopP_length, hal, hlen]
    · rw [hstepP]
      show 0 + 1 ≤ BC_MUL_MAX_ADD_COUNT
      decide
    · rw [hstepP]
      show baseVal BC_MUL_UINT_OVERFLOW
          (innerLoopP (n1u.getD k 0) n2u k (adjustmentP acc)) = _
      rw [innerLoopP_baseVal _ _ _ _ _ hlen', hav, hval,
        baseVal_take_succ BC_MUL_UINT_OVERFLOW n1u k hk]
      ring
    · intro idx hidx
      rw [hstepP]
      show (innerLoopP (n1u.getD k 0) n2u k (adjustmentP acc)).getD idx 0
          ≤ (BC_MUL_UINT_OVERFLOW - 1) + (0 + 1)
            * ((BC_MUL_UINT_OVERFLOW - 1) * (BC_MUL_UINT_OVERFLOW - 1))
      rw [innerLoopP_getD _ _ _ _ hlen' idx]
      have hslot : (adjustmentP acc).getD idx 0 ≤ BC_MUL_UINT_OVERFLOW - 1 := by
        have := hab idx (by omega)
        omega
      have haddbd : (if k ≤ idx ∧ idx < k + n2u.length
          then n1u.getD k 0 * n2u.getD (idx - k) 0 else 0)
          ≤ (BC_MUL_UINT_OVERFLOW - 1) * (BC_MUL_UINT_OVERFLOW - 1) := by
        by_cases hcond : k ≤ idx ∧ idx < k + n2u.length
        · rw [if_pos hcond]
          exact Nat.mul_le_mul hx (hn2bd (idx - k))
        · rw [if_neg hcond]
          exact Nat.zero_le _
      have := hstep_add ((adjustmentP acc).getD idx 0) _ 0 (by simpa using hslot) haddbd
      simpa using this
  · -- no adjustment: count strictly below the threshold
    have hcM : c < BC_MUL_MAX_ADD_COUNT := by omega
    have hS3 : ∀ idx, k ≤ idx → acc.getD idx 0
        ≤ (BC_MUL_UINT_OVERFLOW - 1) + (BC_MUL_MAX_ADD_COUNT - 1)
          * ((BC_MUL_UINT_OVERFLOW - 1) * (BC_MUL_UINT_OVERFLOW - 1)) := by
      intro idx _
      by_cases hI : idx + 1 < P
      · have h1 := hbd idx hI
        have h2 : c * ((BC_MUL_UINT_OVERFLOW - 1) * (BC_MUL_UINT_OVERFLOW - 1))
            ≤ (BC_MUL_MAX_ADD_COUNT - 1)
              * ((BC_MUL_UINT_OVERFLOW - 1) * (BC_MUL_UINT_OVERFLOW - 1)) :=
          Nat.mul_le_mul_right _ (by omega)
        omega
      · by_cases hIlen : idx < P
        · have hidx' : idx = P - 1 := by omega
          subst hidx'
          have hBB : BC_MUL_UINT_OVERFLOW * BC_MUL_UINT_OVERFLOW
              ≤ (BC_MUL_UINT_OVERFLOW - 1) + (BC_MUL_MAX_ADD_COUNT - 1)
                * ((BC_MUL_UINT_OVERFLOW - 1) * (BC_MUL_UINT_OVERFLOW - 1)) := by decide
          omega
        · rw [getD_default_of_le _ _ (by omega)]
          omega
    have hinner : innerLoop (n1u.getD k 0) n2u k acc
        = innerLoopP (n1u.getD k 0) n2u k acc := by
      apply innerLoop_eq_innerLoopP _ _ _ _
        ((BC_MUL_UINT_OVERFLOW - 1) + (BC_MUL_MAX_ADD_COUNT - 1)
          * ((BC_MUL_UINT_OVERFLOW - 1) * (BC_MUL_UINT_OVERFLOW - 1)))
        (by omega) hb2 (by decide) hS3
    have hstepP : outerStepP n1u n2u k (acc, c)
        = (innerLoopP (n1u.getD k 0) n2u k acc, c + 1) := by
      simp only [outerStepP]
      rw [if_neg hadj, if_neg hadj]
    have hstep : outerStep n1u n2u k (acc, c)
        = (innerLoop (n1u.getD k 0) n2u k acc, c + 1) := by
      simp only [outerStep]
      rw [if_neg hadj, if_neg hadj]
    have hlen' : k + n2u.length ≤ acc.length := by
      rw [hlen]
      exact hkP
    refine ⟨?_, ?_, ?_, ?_, ?_⟩
    · rw [hstep, hstepP, hinner]
    · rw [hstepP]
      show (innerLoopP (n1u.getD k 0) n2u k acc).length = P
      rw [innerLoopP_length, hlen]
    · rw [hstepP]
      show c + 1 ≤ BC_MUL_MAX_ADD_COUNT
      omega
    · rw [hstepP]
      show baseVal BC_MUL_UINT_OVERFLOW (innerLoopP (n1u.getD k 0) n2u k acc) = _
      rw [innerLoopP_baseVal _ _ _ _ _ hlen', hval,
        baseVal_take_succ BC_MUL_UINT_OVERFLOW n1u k hk]
      ring
    · intro idx hidx
      rw [hstepP]
      show (innerLoopP (n1u.getD k 0) n2u k acc).getD idx 0
          ≤ (BC_MUL_UINT_OVERFLOW - 1) + (c + 1)
            * ((BC_MUL_UINT_OVERFLOW - 1) * (BC_MUL_UINT_OVERFLOW - 1))
      rw [innerLoopP_getD _ _ _ _ hlen' idx]
      have haddbd : (if k ≤ idx ∧ idx < k + n2u.length
          then n1u.getD k 0 * n2u.getD (idx - k) 0 else 0)
          ≤ (BC_MUL_UINT_OVERFLOW - 1) * (BC_MUL_UINT_OVERFLOW - 1) := by
        by_cases hcond : k ≤ idx ∧ idx < k + n2u.length
        · rw [if_pos hcond]
          exact Nat.mul_le_mul hx (hn2bd (idx - k))
        · rw [if_neg hcond]
          exact Nat.zero_le _
      exact hstep_add (acc.getD idx 0) _ c (hbd idx hidx) haddbd

/-- Invariant of the multiply-and-add phase after any number of outer
iterations: 64-bit and exact runs agree, the accumulator length and
counter stay in range, the represented value is the partial product,
and every slot except the last is bounded by
`(10^W - 1) + count * (10^W - 1)^2`. -/
theorem run_invariant (n1u n2u : List Nat) (P : Nat)
    (hP : P + 1 = n1u.length + n2u.length)
    (hb1 : ∀ z ∈ n1u, z < BC_MUL_UINT_OVERFLOW)
    (hb2 : ∀ z ∈ n2u, z < BC_MUL_UINT_OVERFLOW)
    (hn2 : 1 ≤ n2u.length) :
    ∀ k, k ≤ n1u.length →
      mulAddRun n1u n2u P k = mulAddRunP n1u n2u P k
      ∧ (mulAddRunP n1u n2u P k).1.length = P
      ∧ (mulAddRunP n1u n2u P k).2 ≤ BC_MUL_MAX_ADD_COUNT
      ∧ baseVal BC_MUL_UINT_OVERFLOW (mulAddRunP n1u n2u P k).1
          = baseVal BC_MUL_UINT_OVERFLOW (n1u.take k)
            * baseVal BC_MUL_UINT_OVERFLOW n2u
      ∧ (∀ idx, idx + 1 < P → (mulAddRunP n1u n2u P k).1.getD idx 0
          ≤ (BC_MUL_UINT_OVERFLOW - 1)
            + (mulAddRunP n1u n2u P k).2
              * ((BC_MUL_UINT_OVERFLOW - 1) * (BC_MUL_UINT_OVERFLOW - 1))) := by
  intro k
  induction k with
  | zero =>
    intro _
    refine ⟨rfl, ?_, ?_, ?_, ?_⟩
    · show (List.replicate P (0 : Nat)).length = P
      simp
    · show (0 : Nat) ≤ BC_MUL_MAX_ADD_COUNT
      exact Nat.zero_le _
    · show baseVal BC_MUL_UINT_OVERFLOW (List.replicate P 0) = _
      rw [baseVal_replicate_zero]
      simp [baseVal]
    · intro idx _
      show (List.replicate P (0 : Nat)).getD idx 0 ≤ _
      rw [getD_replicate_zero]
      exact Nat.zero_le _
  | succ k ih =>
    intro hk1
    obtain ⟨heq, hlen, hc, hval, hbd⟩ := ih (by omega)
    have hk : k < n1u.length := by omega
    obtain ⟨s1, s2, s3, s4, s5⟩ := outerStep_invariant n1u n2u P k hP hb1 hb2 hn2 hk
      (mulAddRunP n1u n2u P k).1 (mulAddRunP n1u n2u P k).2 hlen hc hval hbd
    refine ⟨?_, s2, s3, s4, s5⟩
    show outerStep n1u n2u k (mulAddRun n1u n2u P k)
        = outerStepP n1u n2u k (mulAddRunP n1u n2u P k)
    rw [heq]
    exact s1

/-- At every intermediate point of the double multiply-add loop — any
outer iteration `k`, any prefix of `j` inner additions — the 64-bit
state equals the exact state and every slot value fits in 64 bits:
unsigned wraparound is unreachable. -/
theorem partial_invariant (n1u n2u : List Nat) (P : Nat)
    (hP : P + 1 = n1u.length + n2u.length)
    (hb1 : ∀ z ∈ n1u, z < BC_MUL_UINT_OVERFLOW)
    (hb2 : ∀ z ∈ n2u, z < BC_MUL_UINT_OVERFLOW)
    (hn2 : 1 ≤ n2u.length)
    (k : Nat) (hk : k < n1u.length) (j : Nat) (hj : j ≤ n2u.length) :
    mulAddPartial n1u n2u P k j = mulAddPartialP n1u n2u P k j
    ∧ (∀ idx, (mulAddPartialP n1u n2u P k j).getD idx 0 ≤ UINT_MAX) := by
  obtain ⟨heq, hlen, hc, hval, hbd⟩ :=
    run_invariant n1u n2u P hP hb1 hb2 hn2 k (by omega)
  have hBpos : (0 : Nat) < BC_MUL_UINT_OVERFLOW := by decide
  have hP1 : 1 ≤ P := by omega
  have hkP : k + n2u.length ≤ P := by omega
  have hx : n1u.getD k 0 ≤ BC_MUL_UINT_OVERFLOW - 1 :=
    getD_le_of_forall_lt n1u k _ hBpos hb1
  have hbtake : ∀ y ∈ n2u.take j, y < BC_MUL_UINT_OVERFLOW :=
    fun y hy => hb2 y (List.take_subset j n2u hy)
  have hvlt : baseVal BC_MUL_UINT_OVERFLOW (mulAddRunP n1u n2u P k).1
      < BC_MUL_UINT_OVERFLOW ^ (P + 1) := by
    have h1 := baseVal_take_le BC_MUL_UINT_OVERFLOW n1u k
    have h2 := baseVal_lt BC_MUL_UINT_OVERFLOW n1u hBpos hb1
    have h3 := baseVal_lt BC_MUL_UINT_OVERFLOW n2u hBpos hb2
    calc baseVal BC_MUL_UINT_OVERFLOW (mulAddRunP n1u n2u P k).1
        = baseVal BC_MUL_UINT_OVERFLOW (n1u.take k)
          * baseVal BC_MUL_UINT_OVERFLOW n2u := hval
      _ < BC_MUL_UINT_OVERFLOW ^ n1u.length * BC_MUL_UINT_OVERFLOW ^ n2u.length := by
          exact Nat.mul_lt_mul_of_lt_of_le (by omega) (le_of_lt h3)
            (Nat.pos_pow_of_pos _ hBpos)
      _ = BC_MUL_UINT_OVERFLOW ^ (n1u.length + n2u.length) := by rw [← pow_add]
      _ = BC_MUL_UINT_OVERFLOW ^ (P + 1) := by rw [hP]
  have hexp : BC_MUL_UINT_OVERFLOW ^ (P + 1)
      = (BC_MUL_UINT_OVERFLOW * BC_MUL_UINT_OVERFLOW)
        * BC_MUL_UINT_OVERFLOW ^ (P - 1) := by
    have h : P + 1 = 1 + 1 + (P - 1) := by omega
    rw [h, pow_add, pow_add, pow_one]
  have hdivlast : baseVal BC_MUL_UINT_OVERFLOW (mulAddRunP n1u n2u P k).1
      / BC_MUL_UINT_OVERFLOW ^ (P - 1)
      < BC_MUL_UINT_OVERFLOW * BC_MUL_UINT_OVERFLOW :=
    Nat.div_lt_of_lt_mul (by rw [Nat.mul_comm, ← hexp]; exact hvlt)
  have hlast : (mulAddRunP n1u n2u P k).1.getD (P - 1) 0
      < BC_MUL_UINT_OVERFLOW * BC_MUL_UINT_OVERFLOW := by
    have h4 := getD_mul_pow_le_baseVal BC_MUL_UINT_OVERFLOW (mulAddRunP n1u n2u P k).1 (P - 1)
    have h5 : (mulAddRunP n1u n2u P k).1.getD (P - 1) 0 * BC_MUL_UINT_OVERFLOW ^ (P - 1)
        < (BC_MUL_UINT_OVERFLOW * BC_MUL_UINT_OVERFLOW)
          * BC_MUL_UINT_OVERFLOW ^ (P - 1) := by
      rw [← hexp]
      exact lt_of_le_of_lt h4 hvlt
    exact lt_of_mul_lt_mul_right h5 (Nat.zero_le _)
  have hBB : BC_MUL_UINT_OVERFLOW * BC_MUL_UINT_OVERFLOW
      ≤ (BC_MUL_UINT_OVERFLOW - 1) + (BC_MUL_MAX_ADD_COUNT - 1)
        * ((BC_MUL_UINT_OVERFLOW - 1) * (BC_MUL_UINT_OVERFLOW - 1)) := by decide
  by_cases hadj : BC_MUL_MAX_ADD_COUNT ≤ (mulAddRunP n1u n2u P k).2
  · obtain ⟨hal, hav, hab, haL⟩ := adjustmentP_spec (mulAddRunP n1u n2u P k).1 (by omega)
    rw [hlen] at haL hab
    have hmemM : ∀ d ∈ (mulAddRunP n1u n2u P k).1, d ≤ (BC_MUL_UINT_OVERFLOW - 1)
        + BC_MUL_MAX_ADD_COUNT
          * ((BC_MUL_UINT_OVERFLOW - 1) * (BC_MUL_UINT_OVERFLOW - 1)) := by
      apply forall_mem_le_of_getD
      intro idx hidx
      by_cases hI : idx + 1 < P
      · have h1 := hbd idx hI
        have h2 := Nat.mul_le_mul_right
          ((BC_MUL_UINT_OVERFLOW - 1) * (BC_MUL_UINT_OVERFLOW - 1)) hc
        omega
      · have hidx' : idx = P - 1 := by omega
        subst hidx'
        have hBB2 : BC_MUL_UINT_OVERFLOW * BC_MUL_UINT_OVERFLOW
            ≤ (BC_MUL_UINT_OVERFLOW - 1) + BC_MUL_MAX_ADD_COUNT
              * ((BC_MUL_UINT_OVERFLOW - 1) * (BC_MUL_UINT_OVERFLOW - 1)) := by decide
        omega
    have hadjeq : bc_digits_adjustment (mulAddRunP n1u n2u P k).1
        = adjustmentP (mulAddRunP n1u n2u P k).1 :=
      adjustment_eq_of_bounded _ (by omega) _ 200000000000
        (by decide) (by decide) hmemM
    have hS3 : ∀ idx, k ≤ idx → (adjustmentP (mulAddRunP n1u n2u P k).1).getD idx 0
        ≤ (BC_MUL_UINT_OVERFLOW - 1) + (BC_MUL_MAX_ADD_COUNT - 1)
          * ((BC_MUL_UINT_OVERFLOW - 1) * (BC_MUL_UINT_OVERFLOW - 1)) := by
      intro idx _
      by_cases hI : idx + 1 < P
      · have := hab idx (by omega)
        omega
      · by_cases hIlen : idx < P
        · have hidx' : idx = P - 1 := by omega
          subst hidx'
          rw [haL]
          omega
        · rw [getD_default_of_le _ _ (by rw [hal, hlen]; omega)]
          omega
    have hinner : innerLoop (n1u.getD k 0) (n2u.take j) k
          (adjustmentP (mulAddRunP n1u n2u P k).1)
        = innerLoopP (n1u.getD k 0) (n2u.take j) k
          (adjustmentP (mulAddRunP n1u n2u P k).1) :=
      innerLoop_eq_innerLoopP _ _ _ _
        ((BC_MUL_UINT_OVERFLOW - 1) + (BC_MUL_MAX_ADD_COUNT - 1)
          * ((BC_MUL_UINT_OVERFLOW - 1) * (BC_MUL_UINT_OVERFLOW - 1)))
        (by omega) hbtake (by decide) hS3
    have hlen' : k + (n2u.take j).length
        ≤ (adjustmentP (mulAddRunP n1u n2u P k).1).length := by
      rw [hal, hlen]
      simp only [List.length_take]
      omega
    constructor
    · show innerLoop (n1u.getD k 0) (n2u.take j) k
          (if BC_MUL_MAX_ADD_COUNT ≤ (mulAddRun n1u n2u P k).2
            then bc_digits_adjustment (mulAddRun n1u n2u P k).1
            else (mulAddRun n1u n2u P k).1) = _
      rw [heq, if_pos hadj, hadjeq]
      show _ = innerLoopP (n1u.getD k 0) (n2u.take j) k
          (if BC_MUL_MAX_ADD_COUNT ≤ (mulAddRunP n1u n2u P k).2
            then adjustmentP (mulAddRunP n1u n2u P k).1
            else (mulAddRunP n1u n2u P k).1)
      rw [if_pos hadj]
      exact hinner
    · intro idx
      show (innerLoopP (n1u.getD k 0) (n2u.take j) k
          (if BC_MUL_MAX_ADD_COUNT ≤ (mulAddRunP n1u n2u P k).2
            then adjustmentP (mulAddRunP n1u n2u P k).1
            else (mulAddRunP n1u n2u P k).1)).getD idx 0 ≤ UINT_MAX
      rw [if_pos hadj]
      rw [innerLoopP_getD _ _ _ _ hlen' idx]
      have hslot := hS3 idx
      have hM1U : (BC_MUL_UINT_OVERFLOW - 1) + (BC_MUL_MAX_ADD_COUNT - 1)
          * ((BC_MUL_UINT_OVERFLOW - 1) * (BC_MUL_UINT_OVERFLOW - 1))
          + (BC_MUL_UINT_OVERFLOW - 1) * (BC_MUL_UINT_OVERFLOW - 1) ≤ UINT_MAX := by decide
      by_cases hcond : k ≤ idx ∧ idx < k + (n2u.take j).length
      · rw [if_pos hcond]
        have hmul : n1u.getD k 0 * (n2u.take j).getD (idx - k) 0
            ≤ (BC_MUL_UINT_OVERFLOW - 1) * (BC_MUL_UINT_OVERFLOW - 1) :=
          Nat.mul_le_mul hx (getD_le_of_forall_lt _ _ _ hBpos hbtake)
        have := hslot hcond.1
        omega
      · rw [if_neg hcond]
        by_cases hge : k ≤ idx
        · have := hslot hge
          omega
        · by_cases hI : idx + 1 < P
          · have h1 := hbd idx hI
            have h2 := Nat.mul_le_mul_right
              ((BC_MUL_UINT_OVERFLOW - 1) * (BC_MUL_UINT_OVERFLOW - 1)) hc
            have hM0U : (BC_MUL_UINT_OVERFLOW - 1) + BC_MUL_MAX_ADD_COUNT
                * ((BC_MUL_UINT_OVERFLOW - 1) * (BC_MUL_UINT_OVERFLOW - 1))
                ≤ UINT_MAX := by decide
            have hle := hab idx hI
            omega
          · by_cases hIlen : idx < P
            · have hidx' : idx = P - 1 := by omega
              subst hidx'
              rw [haL]
              have hUB : BC_MUL_UINT_OVERFLOW * BC_MUL_UINT_OVERFLOW ≤ UINT_MAX := by decide
              omega
            · rw [getD_default_of_le _ _ (by rw [hal, hlen]; omega)]
              omega
  · have hS3 : ∀ idx, k ≤ idx → (mulAddRunP n1u n2u P k).1.getD idx 0
        ≤ (BC_MUL_UINT_OVERFLOW - 1) + (BC_MUL_MAX_ADD_COUNT - 1)
          * ((BC_MUL_UINT_OVERFLOW - 1) * (BC_MUL_UINT_OVERFLOW - 1)) := by
      intro idx _
      by_cases hI : idx + 1 < P
      · have h1 := hbd idx hI
        have h2 : (mulAddRunP n1u n2u P k).2
            * ((BC_MUL_UINT_OVERFLOW - 1) * (BC_MUL_UINT_OVERFLOW - 1))
            ≤ (BC_MUL_MAX_ADD_COUNT - 1)
              * ((BC_MUL_UINT_OVERFLOW - 1) * (BC_MUL_UINT_OVERFLOW - 1)) :=
          Nat.mul_le_mul_right _ (by omega)
        omega
      · by_cases hIlen : idx < P
        · have hidx' : idx = P - 1 := by omega
          subst hidx'
          omega
        · rw [getD_default_of_le _ _ (by omega)]
          omega
    have hinner : innerLoop (n1u.getD k 0) (n2u.take j) k (mulAddRunP n1u n2u P k).1
        = innerLoopP (n1u.getD k 0) (n2u.take j) k (mulAddRunP n1u n2u P k).1 :=
      innerLoop_eq_innerLoopP _ _ _ _
        ((BC_MUL_UINT_OVERFLOW - 1) + (BC_MUL_MAX_ADD_COUNT - 1)
          * ((BC_MUL_UINT_OVERFLOW - 1) * (BC_MUL_UINT_OVERFLOW - 1)))
        (by omega) hbtake (by decide) hS3
    have hlen' : k + (n2u.take j).length ≤ (mulAddRunP n1u n2u P k).1.length := by
      rw [hlen]
      simp only [List.length_take]
      omega
    constructor
    · show innerLoop (n1u.getD k 0) (n2u.take j) k
          (if BC_MUL_MAX_ADD_COUNT ≤ (mulAddRun n1u n2u P k).2
            then bc_digits_adjustment (mulAddRun n1u n2u P k).1
            else (mulAddRun n1u n2u P k).1) = _
      rw [heq, if_neg hadj]
      show _ = innerLoopP (n1u.getD k 0) (n2u.take j) k
          (if BC_MUL_MAX_ADD_COUNT ≤ (mulAddRunP n1u n2u P k).2
            then adjustmentP (mulAddRunP n1u n2u P k).1
            else (mulAddRunP n1u n2u P k).1)
      rw [if_neg hadj]
      exact hinner
    · intro idx
      show (innerLoopP (n1u.getD k 0) (n2u.take j) k
          (if BC_MUL_MAX_ADD_COUNT ≤ (mulAddRunP n1u n2u P k).2
            then adjustmentP (mulAddRunP n1u n2u P k).1
            else (mulAddRunP n1u n2u P k).1)).getD idx 0 ≤ UINT_MAX
      rw [if_neg hadj]
      rw [innerLoopP_getD _ _ _ _ hlen' idx]
      have hM1U : (BC_MUL_UINT_OVERFLOW - 1) + (BC_MUL_MAX_ADD_COUNT - 1)
          * ((BC_MUL_UINT_OVERFLOW - 1) * (BC_MUL_UINT_OVERFLOW - 1))
          + (BC_MUL_UINT_OVERFLOW - 1) * (BC_MUL_UINT_OVERFLOW - 1) ≤ UINT_MAX := by decide
      by_cases hcond : k ≤ idx ∧ idx < k + (n2u.take j).length
      · rw [if_pos hcond]
        have hmul : n1u.getD k 0 * (n2u.take j).getD (idx - k) 0
            ≤ (BC_MUL_UINT_OVERFLOW - 1) * (BC_MUL_UINT_OVERFLOW - 1) :=
          Nat.mul_le_mul hx (getD_le_of_forall_lt _ _ _ hBpos hbtake)
        have := hS3 idx hcond.1
        omega
      · rw [if_neg hcond]
        by_cases hge : k ≤ idx
        · have := hS3 idx hge
          omega
        · by_cases hI : idx + 1 < P
          · have h1 := hbd idx hI
            have h2 := Nat.mul_le_mul_right
              ((BC_MUL_UINT_OVERFLOW - 1) * (BC_MUL_UINT_OVERFLOW - 1)) hc
            have hM0U : (BC_MUL_UINT_OVERFLOW - 1) + BC_MUL_MAX_ADD_COUNT
                * ((BC_MUL_UINT_OVERFLOW - 1) * (BC_MUL_UINT_OVERFLOW - 1))
                ≤ UINT_MAX := by decide
            omega
          · by_cases hIlen : idx < P
            · have hidx' : idx = P - 1 := by omega
              subst hidx'
              have hUB : BC_MUL_UINT_OVERFLOW * BC_MUL_UINT_OVERFLOW ≤ UINT_MAX := by decide
              omega
            · rw [getD_default_of_le _ _ (by omega)]
              omega

theorem bcd_eq_backfill4 (le : Bool) (y : Nat) (hy : y < 10000) :
    bc_write_bcd_representation le y = bc_backfill_digits y 4 := by
  rw [bcd_write_spec le y hy]
  have e : y / 1000 % 10 = y / 1000 := by omega
  simp [bc_backfill_digits, BASE, Nat.div_div_eq_div_mul, e]

/-- The two 4-digit BCD writes of the bulk emission loop write exactly
the eight decimal digits of a limb. -/
theorem limb_block_eq_backfill (le : Bool) (x : Nat) (hx : x < BC_MUL_UINT_OVERFLOW) :
    bc_write_bcd_representation le (x / 10000) ++ bc_write_bcd_representation le (x % 10000)
      = bc_backfill_digits x 8 := by
  have h1 : x / 10000 < 10000 := by
    simp only [BC_MUL_UINT_OVERFLOW] at hx
    omega
  have h2 : x % 10000 < 10000 := by omega
  rw [bcd_eq_backfill4 le _ h1, bcd_eq_backfill4 le _ h2]
  have hsplit := backfill_split x 4 4
  have h4 : BASE ^ (4 : Nat) = 10000 := by decide
  rw [h4] at hsplit
  rw [show (8 : Nat) = 4 + 4 from rfl, hsplit]
  congr 1
  rw [backfill_mod x 4, h4]

theorem emitBulk_cons (le : Bool) (x : Nat) (rest : List Nat) : ∀ k,
    emitBulk le (x :: rest) (k + 1)
      = emitBulk le rest k
        ++ (bc_write_bcd_representation le (x / 10000)
            ++ bc_write_bcd_representation le (x % 10000)) := by
  intro k
  induction k with
  | zero =>
    show (bc_write_bcd_representation le ((x :: rest).getD 0 0 / 10000)
        ++ bc_write_bcd_representation le ((x :: rest).getD 0 0 % 10000))
        ++ emitBulk le (x :: rest) 0 = _
    simp only [List.getD_cons_zero, emitBulk]
    rw [List.append_nil, List.nil_append]
  | succ k ih =>
    show (bc_write_bcd_representation le ((x :: rest).getD (k + 1) 0 / 10000)
        ++ bc_write_bcd_representation le ((x :: rest).getD (k + 1) 0 % 10000))
        ++ emitBulk le (x :: rest) (k + 1) = _
    rw [ih, List.getD_cons_succ]
    show _ = ((bc_write_bcd_representation le (rest.getD k 0 / 10000)
        ++ bc_write_bcd_representation le (rest.getD k 0 % 10000))
        ++ emitBulk le rest k)
        ++ (bc_write_bcd_representation le (x / 10000)
            ++ bc_write_bcd_representation le (x % 10000))
    simp only [List.append_assoc]

/-- Digit emission of `bc_standard_mul`: after the final carry
normalization (all slots but the last below `10^W`), the bulk loop
plus the scalar loop write exactly the `prodlen`-digit decimal
expansion of the accumulator value. -/
theorem emit_spec (le : Bool) : ∀ (acc : List Nat) (prodlen : Nat),
    1 ≤ acc.length →
    (∀ idx, idx + 1 < acc.length → acc.getD idx 0 < BC_MUL_UINT_OVERFLOW) →
    baseVal BC_MUL_UINT_OVERFLOW acc < BASE ^ prodlen →
    BC_MUL_UINT_DIGITS * (acc.length - 1) ≤ prodlen →
    bc_backfill_digits (acc.getD (acc.length - 1) 0)
        (prodlen - BC_MUL_UINT_DIGITS * (acc.length - 1))
      ++ emitBulk le acc (acc.length - 1)
      = bc_backfill_digits (baseVal BC_MUL_UINT_OVERFLOW acc) prodlen := by
  intro acc
  induction acc with
  | nil =>
    intro prodlen h
    simp at h
  | cons x rest ih =>
    intro prodlen _ hbd hval hlen
    cases rest with
    | nil =>
      show bc_backfill_digits x (prodlen - BC_MUL_UINT_DIGITS * 0) ++ emitBulk le [x] 0
          = bc_backfill_digits (baseVal BC_MUL_UINT_OVERFLOW [x]) prodlen
      have hx : baseVal BC_MUL_UINT_OVERFLOW [x] = x := by simp [baseVal]
      simp only [emitBulk, Nat.mul_zero, Nat.sub_zero, List.append_nil, hx]
    | cons y rest2 =>
      have hLpos : 1 ≤ (y :: rest2).length := by simp
      have hlenc : (x :: y :: rest2).length = (y :: rest2).length + 1 := rfl
      have hxB : x < BC_MUL_UINT_OVERFLOW := by
        have := hbd 0 (by simp)
        simpa using this
      have h8 : BASE ^ (8 : Nat) = BC_MUL_UINT_OVERFLOW := by decide
      have hpl8 : 8 ≤ prodlen := by
        simp only [hlenc, BC_MUL_UINT_DIGITS] at hlen
        omega
      have hVform : baseVal BC_MUL_UINT_OVERFLOW (x :: y :: rest2)
          = x + BC_MUL_UINT_OVERFLOW * baseVal BC_MUL_UINT_OVERFLOW (y :: rest2) := rfl
      have hsplitpow : BASE ^ prodlen
          = BC_MUL_UINT_OVERFLOW * BASE ^ (prodlen - 8) := by
        calc BASE ^ prodlen = BASE ^ (8 + (prodlen - 8)) := by congr 1; omega
          _ = BASE ^ (8 : Nat) * BASE ^ (prodlen - 8) := pow_add BASE 8 (prodlen - 8)
          _ = BC_MUL_UINT_OVERFLOW * BASE ^ (prodlen - 8) := by rw [h8]
      have hV' : baseVal BC_MUL_UINT_OVERFLOW (y :: rest2) < BASE ^ (prodlen - 8) := by
        by_contra hcon
        push_neg at hcon
        have : BC_MUL_UINT_OVERFLOW * BASE ^ (prodlen - 8)
            ≤ BC_MUL_UINT_OVERFLOW * baseVal BC_MUL_UINT_OVERFLOW (y :: rest2) :=
          Nat.mul_le_mul_left _ hcon
        rw [hVform, hsplitpow] at hval
        omega
      have hrec := ih (prodlen - 8) hLpos
        (fun idx hidx => by
          have := hbd (idx + 1) (by simp only [hlenc]; omega)
          simpa using this)
        hV'
        (by simp only [hlenc, BC_MUL_UINT_DIGITS] at *; omega)
      -- left side
      have hgetD : (x :: y :: rest2).getD ((x :: y :: rest2).length - 1) 0
          = (y :: rest2).getD ((y :: rest2).length - 1) 0 := by
        have hL : (x :: y :: rest2).length - 1 = ((y :: rest2).length - 1) + 1 := by
          simp only [hlenc]
          omega
        rw [hL, List.getD_cons_succ]
      have hcount : prodlen - BC_MUL_UINT_DIGITS * ((x :: y :: rest2).length - 1)
          = (prodlen - 8) - BC_MUL_UINT_DIGITS * ((y :: rest2).length - 1) := by
        simp only [hlenc, BC_MUL_UINT_DIGITS] at *
        omega
      have hbulk : emitBulk le (x :: y :: rest2) ((x :: y :: rest2).length - 1)
          = emitBulk le (y :: rest2) ((y :: rest2).length - 1)
            ++ (bc_write_bcd_representation le (x / 10000)
                ++ bc_write_bcd_representation le (x % 10000)) := by
        have : (x :: y :: rest2).length - 1 = ((y :: rest2).length - 1) + 1 := by
          simp only [hlenc]
          omega
        rw [this, emitBulk_cons]
      rw [hgetD, hcount, hbulk, ← List.append_assoc, hrec]
      -- right side
      rw [limb_block_eq_backfill le x hxB]
      have hsplitR : bc_backfill_digits (baseVal BC_MUL_UINT_OVERFLOW (x :: y :: rest2)) prodlen
          = bc_backfill_digits (baseVal BC_MUL_UINT_OVERFLOW (x :: y :: rest2) / BASE ^ (8:Nat))
              (prodlen - 8)
            ++ bc_backfill_digits (baseVal BC_MUL_UINT_OVERFLOW (x :: y :: rest2)) 8 := by
        have h := backfill_split (baseVal BC_MUL_UINT_OVERFLOW (x :: y :: rest2)) (prodlen - 8) 8
        rw [show prodlen - 8 + 8 = prodlen by omega] at h
        exact h
      rw [hsplitR]
      have hdiv : baseVal BC_MUL_UINT_OVERFLOW (x :: y :: rest2) / BASE ^ (8:Nat)
          = baseVal BC_MUL_UINT_OVERFLOW (y :: rest2) := by
        rw [h8, hVform, Nat.add_mul_div_left x _ (by decide : 0 < BC_MUL_UINT_OVERFLOW)]
        have : x / BC_MUL_UINT_OVERFLOW = 0 := Nat.div_eq_of_lt hxB
        omega
      have hmod : bc_backfill_digits (baseVal BC_MUL_UINT_OVERFLOW (x :: y :: rest2)) 8
          = bc_backfill_digits x 8 := by
        rw [backfill_mod _ 8, h8, hVform, Nat.add_mul_mod_self_left,
          Nat.mod_eq_of_lt hxB]
      rw [hdiv, hmod]

theorem final_state_spec (n1u n2u : List Nat) (P : Nat)
    (hP : P + 1 = n1u.length + n2u.length)
    (hb1 : ∀ z ∈ n1u, z < BC_MUL_UINT_OVERFLOW)
    (hb2 : ∀ z ∈ n2u, z < BC_MUL_UINT_OVERFLOW)
    (hn1 : 1 ≤ n1u.length) (hn2 : 1 ≤ n2u.length) :
    bc_digits_adjustment (mulAddRun n1u n2u P n1u.length).1
      = adjustmentP (mulAddRunP n1u n2u P n1u.length).1
    ∧ (adjustmentP (mulAddRunP n1u n2u P n1u.length).1).length = P
    ∧ baseVal BC_MUL_UINT_OVERFLOW (adjustmentP (mulAddRunP n1u n2u P n1u.length).1)
        = baseVal BC_MUL_UINT_OVERFLOW n1u * baseVal BC_MUL_UINT_OVERFLOW n2u
    ∧ (∀ idx, idx + 1 < P →
        (adjustmentP (mulAddRunP n1u n2u P n1u.length).1).getD idx 0
          < BC_MUL_UINT_OVERFLOW)
    ∧ (adjustmentP (mulAddRunP n1u n2u P n1u.length).1).getD (P - 1) 0
        = baseVal BC_MUL_UINT_OVERFLOW n1u * baseVal BC_MUL_UINT_OVERFLOW n2u
          / BC_MUL_UINT_OVERFLOW ^ (P - 1) := by
  obtain ⟨heq, hlen, hc, hval, hbd⟩ :=
    run_invariant n1u n2u P hP hb1 hb2 hn2 n1u.length (le_refl _)
  have hBpos : (0 : Nat) < BC_MUL_UINT_OVERFLOW := by decide
  have hP1 : 1 ≤ P := by omega
  have htake : n1u.take n1u.length = n1u := List.take_of_length_le (le_refl _)
  rw [htake] at hval
  have hvlt : baseVal BC_MUL_UINT_OVERFLOW (mulAddRunP n1u n2u P n1u.length).1
      < BC_MUL_UINT_OVERFLOW ^ (P + 1) := by
    have h2 := baseVal_lt BC_MUL_UINT_OVERFLOW n1u hBpos hb1
    have h3 := baseVal_lt BC_MUL_UINT_OVERFLOW n2u hBpos hb2
    calc baseVal BC_MUL_UINT_OVERFLOW (mulAddRunP n1u n2u P n1u.length).1
        = baseVal BC_MUL_UINT_OVERFLOW n1u * baseVal BC_MUL_UINT_OVERFLOW n2u := hval
      _ < BC_MUL_UINT_OVERFLOW ^ n1u.length * BC_MUL_UINT_OVERFLOW ^ n2u.length :=
          Nat.mul_lt_mul_of_lt_of_le h2 (le_of_lt h3) (Nat.pos_pow_of_pos _ hBpos)
      _ = BC_MUL_UINT_OVERFLOW ^ (n1u.length + n2u.length) := by rw [← pow_add]
      _ = BC_MUL_UINT_OVERFLOW ^ (P + 1) := by rw [hP]
  have hexp : BC_MUL_UINT_OVERFLOW ^ (P + 1)
      = (BC_MUL_UINT_OVERFLOW * BC_MUL_UINT_OVERFLOW)
        * BC_MUL_UINT_OVERFLOW ^ (P - 1) := by
    have h : P + 1 = 1 + 1 + (P - 1) := by omega
    rw [h, pow_add, pow_add, pow_one]
  have hlast : (mulAddRunP n1u n2u P n1u.length).1.getD (P - 1) 0
      < BC_MUL_UINT_OVERFLOW * BC_MUL_UINT_OVERFLOW := by
    have h4 := getD_mul_pow_le_baseVal BC_MUL_UINT_OVERFLOW
      (mulAddRunP n1u n2u P n1u.length).1 (P - 1)
    have h5 : (mulAddRunP n1u n2u P n1u.length).1.getD (P - 1) 0
        * BC_MUL_UINT_OVERFLOW ^ (P - 1)
        < (BC_MUL_UINT_OVERFLOW * BC_MUL_UINT_OVERFLOW)
          * BC_MUL_UINT_OVERFLOW ^ (P - 1) := by
      rw [← hexp]
      exact lt_of_le_of_lt h4 hvlt
    exact lt_of_mul_lt_mul_right h5 (Nat.zero_le _)
  have hmemM : ∀ d ∈ (mulAddRunP n1u n2u P n1u.length).1, d ≤ (BC_MUL_UINT_OVERFLOW - 1)
      + BC_MUL_MAX_ADD_COUNT
        * ((BC_MUL_UINT_OVERFLOW - 1) * (BC_MUL_UINT_OVERFLOW - 1)) := by
    apply forall_mem_le_of_getD
    intro idx hidx
    by_cases hI : idx + 1 < P
    · have hq1 := hbd idx hI
      have hq2 := Nat.mul_le_mul_right
        ((BC_MUL_UINT_OVERFLOW - 1) * (BC_MUL_UINT_OVERFLOW - 1)) hc
      omega
    · have hidx' : idx = P - 1 := by omega
      subst hidx'
      have hBB2 : BC_MUL_UINT_OVERFLOW * BC_MUL_UINT_OVERFLOW
          ≤ (BC_MUL_UINT_OVERFLOW - 1) + BC_MUL_MAX_ADD_COUNT
            * ((BC_MUL_UINT_OVERFLOW - 1) * (BC_MUL_UINT_OVERFLOW - 1)) := by decide
      omega
  have hadjeq : bc_digits_adjustment (mulAddRunP n1u n2u P n1u.length).1
      = adjustmentP (mulAddRunP n1u n2u P n1u.length).1 :=
    adjustment_eq_of_bounded _ (by omega) _ 200000000000 (by decide) (by decide) hmemM
  obtain ⟨hal, hav, hab, haL⟩ :=
    adjustmentP_spec (mulAddRunP n1u n2u P n1u.length).1 (by omega)
  rw [hlen] at hab
  refine ⟨?_, ?_, ?_, ?_, ?_⟩
  · rw [heq, hadjeq]
  · rw [hal, hlen]
  · rw [hav, hval]
  · exact hab
  · rw [hlen, hval] at haL
    exact haL

/-- `bc_standard_mul` writes exactly the `len1 + len2`-digit decimal
expansion of the product of the operand values. -/
theorem standard_mul_spec (le : Bool) (n1 n2 : List Nat) (len1 len2 : Nat)
    (h1 : n1.length = len1) (h2 : n2.length = len2)
    (hl1 : 1 ≤ len1) (hl2 : 1 ≤ len2)
    (hd1 : ∀ d ∈ n1, d < 10) (hd2 : ∀ d ∈ n2, d < 10) :
    bc_standard_mul le n1 len1 n2 len2
      = bc_backfill_digits (digitsVal n1 * digitsVal n2) (len1 + len2) := by
  obtain ⟨hc1len, hc1bd, hc1val⟩ := convert_to_uint_spec le len1 n1.reverse
    (by simp [h1]) (fun d hd => hd1 d (List.mem_reverse.mp hd))
  obtain ⟨hc2len, hc2bd, hc2val⟩ := convert_to_uint_spec le len2 n2.reverse
    (by simp [h2]) (fun d hd => hd2 d (List.mem_reverse.mp hd))
  have hv1 : baseVal BC_MUL_UINT_OVERFLOW (bc_convert_to_uint le n1.reverse len1)
      = digitsVal n1 := by
    rw [hc1val, List.take_of_length_le (by simp [h1])]
    rfl
  have hv2 : baseVal BC_MUL_UINT_OVERFLOW (bc_convert_to_uint le n2.reverse len2)
      = digitsVal n2 := by
    rw [hc2val, List.take_of_length_le (by simp [h2])]
    rfl
  have ha1 : 1 ≤ (bc_convert_to_uint le n1.reverse len1).length := by
    rw [hc1len]
    simp only [BC_MUL_UINT_DIGITS]
    omega
  have ha2 : 1 ≤ (bc_convert_to_uint le n2.reverse len2).length := by
    rw [hc2len]
    simp only [BC_MUL_UINT_DIGITS]
    omega
  have hP : ((len1 + BC_MUL_UINT_DIGITS - 1) / BC_MUL_UINT_DIGITS
        + (len2 + BC_MUL_UINT_DIGITS - 1) / BC_MUL_UINT_DIGITS - 1) + 1
      = (bc_convert_to_uint le n1.reverse len1).length
        + (bc_convert_to_uint le n2.reverse len2).length := by
    rw [hc1len, hc2len]
    omega
  obtain ⟨hfadj, hflen, hfval, hfbd, hflast⟩ := final_state_spec
    (bc_convert_to_uint le n1.reverse len1) (bc_convert_to_uint le n2.reverse len2)
    ((len1 + BC_MUL_UINT_DIGITS - 1) / BC_MUL_UINT_DIGITS
      + (len2 + BC_MUL_UINT_DIGITS - 1) / BC_MUL_UINT_DIGITS - 1)
    hP hc1bd hc2bd ha1 ha2
  have hprodbound : digitsVal n1 * digitsVal n2 < BASE ^ (len1 + len2) := by
    have hb1 := digitsVal_lt n1 hd1
    have hb2 := digitsVal_lt n2 hd2
    rw [h1] at hb1
    rw [h2] at hb2
    calc digitsVal n1 * digitsVal n2 < BASE ^ len1 * BASE ^ len2 :=
          Nat.mul_lt_mul_of_lt_of_le hb1 (le_of_lt hb2)
            (Nat.pos_pow_of_pos _ (by decide))
      _ = BASE ^ (len1 + len2) := by rw [← pow_add]
  have hpl : BC_MUL_UINT_DIGITS
      * ((len1 + BC_MUL_UINT_DIGITS - 1) / BC_MUL_UINT_DIGITS
        + (len2 + BC_MUL_UINT_DIGITS - 1) / BC_MUL_UINT_DIGITS - 1 - 1)
      ≤ len1 + len2 := by
    simp only [BC_MUL_UINT_DIGITS]
    omega
  have hemit := emit_spec le
    (adjustmentP (mulAddRunP (bc_convert_to_uint le n1.reverse len1)
      (bc_convert_to_uint le n2.reverse len2)
      ((len1 + BC_MUL_UINT_DIGITS - 1) / BC_MUL_UINT_DIGITS
        + (len2 + BC_MUL_UINT_DIGITS - 1) / BC_MUL_UINT_DIGITS - 1)
      (bc_convert_to_uint le n1.reverse len1).length).1)
    (len1 + len2)
    (by rw [hflen]; omega)
    (by rw [hflen]; exact hfbd)
    (by rw [hfval, hv1, hv2]; exact hprodbound)
    (by rw [hflen]; exact hpl)
  rw [hflen, hfval, hv1, hv2] at hemit
  show bc_backfill_digits ((bc_digits_adjustment (mulAddRun
        (bc_convert_to_uint le n1.reverse len1) (bc_convert_to_uint le n2.reverse len2)
        ((len1 + BC_MUL_UINT_DIGITS - 1) / BC_MUL_UINT_DIGITS
          + (len2 + BC_MUL_UINT_DIGITS - 1) / BC_MUL_UINT_DIGITS - 1)
        ((len1 + BC_MUL_UINT_DIGITS - 1) / BC_MUL_UINT_DIGITS)).1).getD
          ((len1 + BC_MUL_UINT_DIGITS - 1) / BC_MUL_UINT_DIGITS
            + (len2 + BC_MUL_UINT_DIGITS - 1) / BC_MUL_UINT_DIGITS - 1 - 1) 0)
      (len1 + len2 - BC_MUL_UINT_DIGITS
        * ((len1 + BC_MUL_UINT_DIGITS - 1) / BC_MUL_UINT_DIGITS
          + (len2 + BC_MUL_UINT_DIGITS - 1) / BC_MUL_UINT_DIGITS - 1 - 1))
    ++ emitBulk le (bc_digits_adjustment (mulAddRun
        (bc_convert_to_uint le n1.reverse len1) (bc_convert_to_uint le n2.reverse len2)
        ((len1 + BC_MUL_UINT_DIGITS - 1) / BC_MUL_UINT_DIGITS
          + (len2 + BC_MUL_UINT_DIGITS - 1) / BC_MUL_UINT_DIGITS - 1)
        ((len1 + BC_MUL_UINT_DIGITS - 1) / BC_MUL_UINT_DIGITS)).1)
        ((len1 + BC_MUL_UINT_DIGITS - 1) / BC_MUL_UINT_DIGITS
          + (len2 + BC_MUL_UINT_DIGITS - 1) / BC_MUL_UINT_DIGITS - 1 - 1)
    = bc_backfill_digits (digitsVal n1 * digitsVal n2) (len1 + len2)
  rw [hc1len] at hfadj hemit
  rw [hfadj]
  exact hemit

/-! ### The orchestrator: `bc_multiply` over the `bc_num` model -/

/-- Sign of a bcmath number (`PLUS` / `MINUS`). -/
inductive Sign where
  | plus : Sign
  | minus : Sign
deriving DecidableEq

/-- The `bc_num` record as consumed by multiplication: sign, integer
digit count `n_len`, fractional digit count `n_scale`, and the digit
buffer `n_value` (most significant digit first, raw values 0..9). -/
structure BcNum where
  n_sign : Sign
  n_len : Nat
  n_scale : Nat
  n_value : List Nat
deriving DecidableEq

/-- Well-formedness of a `bc_num`: the buffer holds exactly
`n_len + n_scale` digit values 0..9, with at least one integer digit. -/
def WellFormed (n : BcNum) : Prop :=
  n.n_value.length = n.n_len + n.n_scale ∧ (∀ d ∈ n.n_value, d < 10) ∧ 1 ≤ n.n_len

instance (n : BcNum) : Decidable (WellFormed n) := by
  unfold WellFormed
  infer_instance

/-- Modelled from the spec: `_bc_rm_leading_zeros` (declared in
`private.h`, outside this source file) trims leading zero digits from
the result integer part, keeping at least one integer digit: it drops
the leading digit and decrements `n_len` while that digit is zero and
`n_len > 1`.  Returns the trimmed buffer and the new `n_len`. -/
def bc_rm_leading_zeros : List Nat → Nat → List Nat × Nat
  | 0 :: ds, len + 2 => bc_rm_leading_zeros ds (len + 1)
  | ds, len => (ds, len)

/-- Modelled from the spec: `bc_is_zero` (declared outside this source
file) — a number is numerically zero iff every digit of its buffer is
zero. -/
def bc_is_zero (n : BcNum) : Bool := n.n_value.all (fun d => d == 0)

/-- `bc_multiply`: the multiply orchestrator.  The returned record
carries the logical digit extent (`n_len + n_scale` digits) of the
`len1 + len2`-digit raw product buffer. -/
def bc_multiply (le : Bool) (n1 n2 : BcNum) (scale : Nat) : BcNum :=
  let len1 := n1.n_len + n1.n_scale
  let len2 := n2.n_len + n2.n_scale
  let full_scale := n1.n_scale + n2.n_scale
  let prod_scale := min full_scale (max scale (max n1.n_scale n2.n_scale))
  let rawDigits :=
    if len1 ≤ BC_MUL_UINT_DIGITS ∧ len2 ≤ BC_MUL_UINT_DIGITS then
      bc_fast_mul le n1.n_value len1 n2.n_value len2
    else
      bc_standard_mul le n1.n_value len1 n2.n_value len2
  let prod_len := len1 + len2 - full_scale
  let trimmed := bc_rm_leading_zeros (rawDigits.take (prod_len + prod_scale)) prod_len
  let prod : BcNum :=
    { n_sign := if n1.n_sign = n2.n_sign then Sign.plus else Sign.minus
      n_len := trimmed.2
      n_scale := prod_scale
      n_value := trimmed.1 }
  if bc_is_zero prod then { prod with n_sign := Sign.plus } else prod

/-- The canonical shape every product takes: trim the
most-significant-first decimal expansion of the product magnitude and
normalize the sign of zero. -/
def canonicalProduct (sgn : Sign) (intLen scale N : Nat) : BcNum :=
  let trimmed := bc_rm_leading_zeros (bc_backfill_digits N (intLen + scale)) intLen
  let prod : BcNum :=
    { n_sign := sgn, n_len := trimmed.2, n_scale := scale, n_value := trimmed.1 }
  if bc_is_zero prod then { prod with n_sign := Sign.plus } else prod

theorem digitsVal_cons_zero (rest : List Nat) : digitsVal (0 :: rest) = digitsVal rest := by
  unfold digitsVal
  rw [List.reverse_cons, baseVal_append]
  simp [baseVal]

theorem rm_leading_zeros_digitsVal (ds : List Nat) : ∀ len : Nat,
    digitsVal (bc_rm_leading_zeros ds len).1 = digitsVal ds := by
  induction ds with
  | nil =>
    intro len
    rfl
  | cons d rest ih =>
    intro len
    match d, len with
    | 0, len + 2 =>
      show digitsVal (bc_rm_leading_zeros rest (len + 1)).1 = digitsVal (0 :: rest)
      rw [ih (len + 1), digitsVal_cons_zero]
    | 0, 0 => rfl
    | 0, 1 => rfl
    | d + 1, len => rfl

theorem bc_is_zero_iff (n : BcNum) : bc_is_zero n = true ↔ digitsVal n.n_value = 0 := by
  unfold bc_is_zero digitsVal
  rw [baseVal_eq_zero_iff BASE n.n_value.reverse (by decide)]
  simp [List.all_eq_true]

theorem canonical_scale (sgn : Sign) (intLen scale N : Nat) :
    (canonicalProduct sgn intLen scale N).n_scale = scale := by
  simp only [canonicalProduct]
  split
  · rfl
  · rfl

theorem canonical_digitsVal (sgn : Sign) (intLen scale N : Nat)
    (h : N < BASE ^ (intLen + scale)) :
    digitsVal (canonicalProduct sgn intLen scale N).n_value = N := by
  have hv : digitsVal (bc_rm_leading_zeros
      (bc_backfill_digits N (intLen + scale)) intLen).1 = N := by
    rw [rm_leading_zeros_digitsVal, digitsVal_backfill_of_lt _ _ h]
  simp only [canonicalProduct]
  split
  · exact hv
  · exact hv

theorem canonical_sign (sgn : Sign) (intLen scale N : Nat)
    (h : N < BASE ^ (intLen + scale)) :
    (canonicalProduct sgn intLen scale N).n_sign
      = if N = 0 then Sign.plus else sgn := by
  have hv : digitsVal (bc_rm_leading_zeros
      (bc_backfill_digits N (intLen + scale)) intLen).1 = N := by
    rw [rm_leading_zeros_digitsVal, digitsVal_backfill_of_lt _ _ h]
  simp only [canonicalProduct]
  split
  · rename_i hz
    rw [bc_is_zero_iff] at hz
    simp only at hz
    rw [hv] at hz
    rw [if_pos hz]
  · rename_i hz
    have hz' : ¬(N = 0) := by
      intro hN
      apply hz
      rw [bc_is_zero_iff]
      simp only
      rw [hv, hN]
    rw [if_neg hz']

/-- `bc_multiply` computes the canonical product: canonical digits of
the truncated product magnitude, the documented scale, the sign rule,
trimming, and zero normalization. -/
theorem bc_multiply_canonical (le : Bool) (n1 n2 : BcNum) (s : Nat)
    (w1 : WellFormed n1) (w2 : WellFormed n2) :
    bc_multiply le n1 n2 s
      = canonicalProduct (if n1.n_sign = n2.n_sign then Sign.plus else Sign.minus)
          (n1.n_len + n2.n_len)
          (min (n1.n_scale + n2.n_scale) (max s (max n1.n_scale n2.n_scale)))
          (digitsVal n1.n_value * digitsVal n2.n_value
            / BASE ^ ((n1.n_scale + n2.n_scale)
              - min (n1.n_scale + n2.n_scale) (max s (max n1.n_scale n2.n_scale)))) := by
  obtain ⟨w1l, w1d, w1i⟩ := w1
  obtain ⟨w2l, w2d, w2i⟩ := w2
  have hdisp : (if n1.n_len + n1.n_scale ≤ BC_MUL_UINT_DIGITS
        ∧ n2.n_len + n2.n_scale ≤ BC_MUL_UINT_DIGITS then
      bc_fast_mul le n1.n_value (n1.n_len + n1.n_scale) n2.n_value (n2.n_len + n2.n_scale)
    else
      bc_standard_mul le n1.n_value (n1.n_len + n1.n_scale) n2.n_value (n2.n_len + n2.n_scale))
      = bc_backfill_digits (digitsVal n1.n_value * digitsVal n2.n_value)
          ((n1.n_len + n1.n_scale) + (n2.n_len + n2.n_scale)) := by
    by_cases h : n1.n_len + n1.n_scale ≤ BC_MUL_UINT_DIGITS
        ∧ n2.n_len + n2.n_scale ≤ BC_MUL_UINT_DIGITS
    · rw [if_pos h]
      exact fast_mul_spec le n1.n_value n2.n_value _ _ w1l w2l h.1 h.2 w1d w2d
    · rw [if_neg h]
      exact standard_mul_spec le n1.n_value n2.n_value _ _ w1l w2l
        (by omega) (by omega) w1d w2d
  have hps : min (n1.n_scale + n2.n_scale) (max s (max n1.n_scale n2.n_scale))
      ≤ n1.n_scale + n2.n_scale := Nat.min_le_left _ _
  have hexp : (n1.n_len + n1.n_scale) + (n2.n_len + n2.n_scale)
      - ((n1.n_len + n1.n_scale) + (n2.n_len + n2.n_scale) - (n1.n_scale + n2.n_scale)
        + min (n1.n_scale + n2.n_scale) (max s (max n1.n_scale n2.n_scale)))
      = (n1.n_scale + n2.n_scale)
        - min (n1.n_scale + n2.n_scale) (max s (max n1.n_scale n2.n_scale)) := by
    omega
  have htake := backfill_take (digitsVal n1.n_value * digitsVal n2.n_value)
      ((n1.n_len + n1.n_scale) + (n2.n_len + n2.n_scale))
      ((n1.n_len + n1.n_scale) + (n2.n_len + n2.n_scale) - (n1.n_scale + n2.n_scale)
        + min (n1.n_scale + n2.n_scale) (max s (max n1.n_scale n2.n_scale)))
      (by omega)
  rw [hexp] at htake
  have hlen : (n1.n_len + n1.n_scale) + (n2.n_len + n2.n_scale) - (n1.n_scale + n2.n_scale)
      = n1.n_len + n2.n_len := by omega
  simp only [bc_multiply, canonicalProduct]
  rw [hdisp, htake, hlen]

/-! ### Rational-number semantics of a `bc_num` -/

/-- Sign factor: `+1` for `PLUS`, `-1` for `MINUS`. -/
def signFactor : Sign → ℤ
  | Sign.plus => 1
  | Sign.minus => -1

/-- The rational value a `bc_num` represents: signed digit value over
`10^scale`. -/
def numVal (n : BcNum) : ℚ :=
  (signFactor n.n_sign : ℚ) * (digitsVal n.n_value : ℚ) / (BASE : ℚ) ^ n.n_scale

/-- Truncation toward zero of a rational to an integer. -/
def truncToInt (x : ℚ) : ℤ := if 0 ≤ x then ⌊x⌋ else ⌈x⌉

/-- Truncation toward zero of a rational at `s` fractional decimal
digits: digits beyond position `s` are dropped, not rounded. -/
def truncAtScale (x : ℚ) (s : Nat) : ℚ :=
  (truncToInt (x * (BASE : ℚ) ^ s) : ℚ) / (BASE : ℚ) ^ s

theorem signFactor_mul (a b : Sign) :
    signFactor a * signFactor b
      = signFactor (if a = b then Sign.plus else Sign.minus) := by
  cases a <;> cases b <;> decide

theorem signFactor_mul_pm (a b : Sign) :
    signFactor a * signFactor b = 1 ∨ signFactor a * signFactor b = -1 := by
  cases a <;> cases b
  · exact Or.inl (by decide)
  · exact Or.inr (by decide)
  · exact Or.inr (by decide)
  · exact Or.inl (by decide)

theorem floor_nat_div_nat (a b : Nat) :
    ⌊((a : ℚ) / (b : ℚ))⌋ = ((a / b : Nat) : ℤ) := by
  have hnn : (0 : ℚ) ≤ (a : ℚ) / (b : ℚ) := by positivity
  rw [← Int.natCast_floor_eq_floor hnn, Nat.floor_div_eq_div]

theorem trunc_pm_nat_div (σ : ℤ) (hσ : σ = 1 ∨ σ = -1) (a b : Nat) :
    truncToInt ((σ : ℚ) * (a : ℚ) / (b : ℚ)) = σ * ((a / b : Nat) : ℤ) := by
  rcases hσ with h | h
  · subst h
    unfold truncToInt
    rw [if_pos (by positivity)]
    rw [Int.cast_one, one_mul, one_mul]
    exact floor_nat_div_nat a b
  · subst h
    have hx : ((-1 : ℤ) : ℚ) * (a : ℚ) / (b : ℚ) = -((a : ℚ) / (b : ℚ)) := by
      push_cast
      ring
    unfold truncToInt
    rw [hx]
    by_cases hz : ((a : ℚ) / (b : ℚ)) = 0
    · rw [hz]
      have hab : (a / b : Nat) = 0 := by
        rcases Nat.eq_zero_or_pos b with hb | hb
        · subst hb
          simp
        · have : (a : ℚ) = 0 := by
            field_simp at hz
            exact_mod_cast hz
          have ha : a = 0 := by exact_mod_cast this
          simp [ha]
      simp [hab]
    · have hpos : 0 < (a : ℚ) / (b : ℚ) := by
        rcases lt_or_eq_of_le (by positivity : (0:ℚ) ≤ (a : ℚ) / (b : ℚ)) with h' | h'
        · exact h'
        · exact absurd h'.symm hz
      rw [if_neg (by linarith)]
      rw [Int.ceil_neg, floor_nat_div_nat]
      ring

theorem trunc_pm_pow (σ : ℤ) (hσ : σ = 1 ∨ σ = -1) (a e : Nat) :
    truncToInt ((σ : ℚ) * (a : ℚ) / (BASE : ℚ) ^ e)
      = σ * ((a / BASE ^ e : Nat) : ℤ) := by
  have hc : ((BASE : ℚ)) ^ e = ((BASE ^ e : Nat) : ℚ) := by
    push_cast
    ring
  rw [hc, trunc_pm_nat_div σ hσ a (BASE ^ e)]

theorem numVal_mul_scaled (f1 f2 : ℤ) (dA dB s1 s2 ps : Nat) (hps : ps ≤ s1 + s2) :
    ((f1 : ℚ) * (dA : ℚ) / (BASE : ℚ) ^ s1) * ((f2 : ℚ) * (dB : ℚ) / (BASE : ℚ) ^ s2)
      * (BASE : ℚ) ^ ps
      = ((f1 * f2 : ℤ) : ℚ) * ((dA * dB : Nat) : ℚ) / (BASE : ℚ) ^ (s1 + s2 - ps) := by
  have hB : (BASE : ℚ) ≠ 0 := by
    norm_num [BASE]
  have hpow : (BASE : ℚ) ^ s1 * (BASE : ℚ) ^ s2
      = (BASE : ℚ) ^ ps * (BASE : ℚ) ^ (s1 + s2 - ps) := by
    rw [← pow_add, ← pow_add]
    congr 1
    omega
  push_cast
  field_simp
  rw [hpow]
  ring

theorem canonical_numVal (sgn : Sign) (intLen scale N : Nat)
    (h : N < BASE ^ (intLen + scale)) :
    numVal (canonicalProduct sgn intLen scale N)
      = (signFactor sgn : ℚ) * (N : ℚ) / (BASE : ℚ) ^ scale := by
  unfold numVal
  rw [canonical_scale, canonical_digitsVal sgn intLen scale N h,
    canonical_sign sgn intLen scale N h]
  by_cases hN : N = 0
  · rw [if_pos hN, hN]
    simp
  · rw [if_neg hN]

/-- The truncated product magnitude fits the digit extent the
orchestrator allocates for it. -/
theorem truncated_prod_lt (n1 n2 : BcNum) (s : Nat)
    (w1 : WellFormed n1) (w2 : WellFormed n2) :
    digitsVal n1.n_value * digitsVal n2.n_value
        / BASE ^ (n1.n_scale + n2.n_scale
          - min (n1.n_scale + n2.n_scale) (max s (max n1.n_scale n2.n_scale)))
      < BASE ^ ((n1.n_len + n2.n_len)
          + min (n1.n_scale + n2.n_scale) (max s (max n1.n_scale n2.n_scale))) := by
  have hb1 : digitsVal n1.n_value < BASE ^ (n1.n_len + n1.n_scale) := by
    have h := digitsVal_lt n1.n_value w1.2.1
    rwa [w1.1] at h
  have hb2 : digitsVal n2.n_value < BASE ^ (n2.n_len + n2.n_scale) := by
    have h := digitsVal_lt n2.n_value w2.2.1
    rwa [w2.1] at h
  apply Nat.div_lt_of_lt_mul
  calc digitsVal n1.n_value * digitsVal n2.n_value
      < BASE ^ (n1.n_len + n1.n_scale) * BASE ^ (n2.n_len + n2.n_scale) :=
        Nat.mul_lt_mul_of_lt_of_le hb1 (le_of_lt hb2)
          (Nat.pos_pow_of_pos _ (by decide))
    _ = BASE ^ (n1.n_scale + n2.n_scale
          - min (n1.n_scale + n2.n_scale) (max s (max n1.n_scale n2.n_scale)))
        * BASE ^ ((n1.n_len + n2.n_len)
          + min (n1.n_scale + n2.n_scale) (max s (max n1.n_scale n2.n_scale))) := by
        rw [← pow_add, ← pow_add]
        congr 1
        have := Nat.min_le_left (n1.n_scale + n2.n_scale)
          (max s (max n1.n_scale n2.n_scale))
        omega

/-- Each BCD write is four bytes long. -/
theorem bcd_length (le : Bool) (v : Nat) :
    (bc_write_bcd_representation le v).length = 4 := by
  unfold bc_write_bcd_representation wordBytes4
  cases le <;> simp

/-- The bulk emission phase writes exactly `W` digits per limb. -/
theorem emitBulk_length (le : Bool) (acc : List Nat) : ∀ k,
    (emitBulk le acc k).length = BC_MUL_UINT_DIGITS * k := by
  intro k
  induction k with
  | zero => rfl
  | succ k ih =>
    show ((bc_write_bcd_representation le (acc.getD k 0 / 10000)
        ++ bc_write_bcd_representation le (acc.getD k 0 % 10000))
        ++ emitBulk le acc k).length = _
    simp only [List.length_append, bcd_length, ih, BC_MUL_UINT_DIGITS]
    ring

/-! ### The claims -/

/-- C1: for every pair of well-formed operands (any signs, scales and
digit counts on either side of the fast/standard boundary) and every
target scale `s`, `bc_multiply` returns exactly the mathematical
product of the operand values with its fractional part truncated
toward zero to the scale
`min(a.scale + b.scale, max(s, max(a.scale, b.scale)))`. -/
theorem claim_C1 (le : Bool) (n1 n2 : BcNum) (s : Nat)
    (w1 : WellFormed n1) (w2 : WellFormed n2) :
    numVal (bc_multiply le n1 n2 s)
      = truncAtScale (numVal n1 * numVal n2)
          (min (n1.n_scale + n2.n_scale) (max s (max n1.n_scale n2.n_scale))) := by
  have hN := truncated_prod_lt n1 n2 s w1 w2
  rw [bc_multiply_canonical le n1 n2 s w1 w2]
  rw [canonical_numVal _ _ _ _ hN]
  unfold truncAtScale
  simp only [numVal]
  rw [numVal_mul_scaled (signFactor n1.n_sign) (signFactor n2.n_sign)
    (digitsVal n1.n_value) (digitsVal n2.n_value) n1.n_scale n2.n_scale
    (min (n1.n_scale + n2.n_scale) (max s (max n1.n_scale n2.n_scale)))
    (Nat.min_le_left _ _)]
  rw [trunc_pm_pow (signFactor n1.n_sign * signFactor n2.n_sign)
    (signFactor_mul_pm n1.n_sign n2.n_sign)
    (digitsVal n1.n_value * digitsVal n2.n_value)
    (n1.n_scale + n2.n_scale
      - min (n1.n_scale + n2.n_scale) (max s (max n1.n_scale n2.n_scale)))]
  generalize digitsVal n1.n_value * digitsVal n2.n_value
      / BASE ^ (n1.n_scale + n2.n_scale
        - min (n1.n_scale + n2.n_scale) (max s (max n1.n_scale n2.n_scale))) = N
  rw [← signFactor_mul n1.n_sign n2.n_sign]
  push_cast
  ring

theorem claim_C1_witness :
    WellFormed { n_sign := Sign.minus, n_len := 1, n_scale := 1, n_value := [1, 5] }
    ∧ WellFormed { n_sign := Sign.plus, n_len := 1, n_scale := 0, n_value := [2] }
    ∧ numVal (bc_multiply true
        { n_sign := Sign.minus, n_len := 1, n_scale := 1, n_value := [1, 5] }
        { n_sign := Sign.plus, n_len := 1, n_scale := 0, n_value := [2] } 0)
      = truncAtScale
          (numVal { n_sign := Sign.minus, n_len := 1, n_scale := 1, n_value := [1, 5] }
            * numVal { n_sign := Sign.plus, n_len := 1, n_scale := 0, n_value := [2] })
          (min (1 + 0) (max 0 (max 1 0))) :=
  ⟨by decide, by decide,
    claim_C1 true
      { n_sign := Sign.minus, n_len := 1, n_scale := 1, n_value := [1, 5] }
      { n_sign := Sign.plus, n_len := 1, n_scale := 0, n_value := [2] } 0
      (by decide) (by decide)⟩

/-- C2: the scale of the number returned by `bc_multiply` is exactly
`min(n1.scale + n2.scale, max(target_scale, max(n1.scale, n2.scale)))`. -/
theorem claim_C2 (le : Bool) (n1 n2 : BcNum) (s : Nat)
    (w1 : WellFormed n1) (w2 : WellFormed n2) :
    (bc_multiply le n1 n2 s).n_scale
      = min (n1.n_scale + n2.n_scale) (max s (max n1.n_scale n2.n_scale)) := by
  rw [bc_multiply_canonical le n1 n2 s w1 w2, canonical_scale]

theorem claim_C2_witness :
    WellFormed { n_sign := Sign.plus, n_len := 1, n_scale := 1, n_value := [2, 5] }
    ∧ WellFormed { n_sign := Sign.minus, n_len := 1, n_scale := 1, n_value := [0, 4] }
    ∧ (bc_multiply true
        { n_sign := Sign.plus, n_len := 1, n_scale := 1, n_value := [2, 5] }
        { n_sign := Sign.minus, n_len := 1, n_scale := 1, n_value := [0, 4] } 3).n_scale
      = min (1 + 1) (max 3 (max 1 1)) :=
  ⟨by decide, by decide,
    claim_C2 true
      { n_sign := Sign.plus, n_len := 1, n_scale := 1, n_value := [2, 5] }
      { n_sign := Sign.minus, n_len := 1, n_scale := 1, n_value := [0, 4] } 3
      (by decide) (by decide)⟩

/-- C3: the sign of the number returned by `bc_multiply` is `Positive`
when the operand signs agree and `Negative` when they differ, except
that a numerically zero result is always `Positive`. -/
theorem claim_C3 (le : Bool) (n1 n2 : BcNum) (s : Nat)
    (w1 : WellFormed n1) (w2 : WellFormed n2) :
    (bc_multiply le n1 n2 s).n_sign
      = if bc_is_zero (bc_multiply le n1 n2 s) = true then Sign.plus
        else if n1.n_sign = n2.n_sign then Sign.plus else Sign.minus := by
  have hN := truncated_prod_lt n1 n2 s w1 w2
  rw [bc_multiply_canonical le n1 n2 s w1 w2]
  have hzn : bc_is_zero (canonicalProduct
        (if n1.n_sign = n2.n_sign then Sign.plus else Sign.minus)
        (n1.n_len + n2.n_len)
        (min (n1.n_scale + n2.n_scale) (max s (max n1.n_scale n2.n_scale)))
        (digitsVal n1.n_value * digitsVal n2.n_value
          / BASE ^ (n1.n_scale + n2.n_scale
            - min (n1.n_scale + n2.n_scale) (max s (max n1.n_scale n2.n_scale))))) = true
      ↔ digitsVal n1.n_value * digitsVal n2.n_value
          / BASE ^ (n1.n_scale + n2.n_scale
            - min (n1.n_scale + n2.n_scale) (max s (max n1.n_scale n2.n_scale))) = 0 := by
    rw [bc_is_zero_iff, canonical_digitsVal _ _ _ _ hN]
  rw [canonical_sign _ _ _ _ hN]
  by_cases hz : digitsVal n1.n_value * digitsVal n2.n_value
      / BASE ^ (n1.n_scale + n2.n_scale
        - min (n1.n_scale + n2.n_scale) (max s (max n1.n_scale n2.n_scale))) = 0
  · rw [if_pos hz, if_pos (hzn.mpr hz)]
  · rw [if_neg hz, if_neg (fun hc => hz (hzn.mp hc))]

theorem claim_C3_witness :
    WellFormed { n_sign := Sign.minus, n_len := 1, n_scale := 0, n_value := [5] }
    ∧ WellFormed { n_sign := Sign.plus, n_len := 1, n_scale := 0, n_value := [0] }
    ∧ (bc_multiply true
        { n_sign := Sign.minus, n_len := 1, n_scale := 0, n_value := [5] }
        { n_sign := Sign.plus, n_len := 1, n_scale := 0, n_value := [0] } 0).n_sign
      = if bc_is_zero (bc_multiply true
            { n_sign := Sign.minus, n_len := 1, n_scale := 0, n_value := [5] }
            { n_sign := Sign.plus, n_len := 1, n_scale := 0, n_value := [0] } 0) = true
        then Sign.plus
        else if Sign.minus = Sign.plus then Sign.plus else Sign.minus :=
  ⟨by decide, by decide,
    claim_C3 true
      { n_sign := Sign.minus, n_len := 1, n_scale := 0, n_value := [5] }
      { n_sign := Sign.plus, n_len := 1, n_scale := 0, n_value := [0] } 0
      (by decide) (by decide)⟩

/-- C4: in the double multiply-add loop of `bc_standard_mul`, with the
forced normalization at `BC_MUL_MAX_ADD_COUNT`, the 64-bit state always
equals the exact (unbounded) state — at every outer iteration `k` and
after any prefix of `j` inner additions — and every accumulator slot
stays at most `UINT_MAX`: unsigned wraparound is unreachable for all
operand sizes. -/
theorem claim_C4 (n1u n2u : List Nat) (P : Nat)
    (hP : P + 1 = n1u.length + n2u.length)
    (hb1 : ∀ z ∈ n1u, z < BC_MUL_UINT_OVERFLOW)
    (hb2 : ∀ z ∈ n2u, z < BC_MUL_UINT_OVERFLOW)
    (hn2 : 1 ≤ n2u.length)
    (k : Nat) (hk : k < n1u.length) (j : Nat) (hj : j ≤ n2u.length) :
    mulAddPartial n1u n2u P k j = mulAddPartialP n1u n2u P k j
    ∧ ∀ idx, (mulAddPartialP n1u n2u P k j).getD idx 0 ≤ UINT_MAX :=
  partial_invariant n1u n2u P hP hb1 hb2 hn2 k hk j hj

theorem claim_C4_witness :
    (1 + 1 = [99999999].length + [99999999].length
      ∧ (∀ z ∈ [99999999], z < BC_MUL_UINT_OVERFLOW))
    ∧ mulAddPartial [99999999] [99999999] 1 0 1
        = mulAddPartialP [99999999] [99999999] 1 0 1
    ∧ ∀ idx, (mulAddPartialP [99999999] [99999999] 1 0 1).getD idx 0 ≤ UINT_MAX :=
  ⟨⟨by decide, by decide⟩,
    claim_C4 [99999999] [99999999] 1 (by decide) (by decide) (by decide)
      (by decide) 0 (by decide) 1 (by decide)⟩

/-- C5: on operands where both total digit counts are at most `W` (so
both paths are valid), `bc_fast_mul` and `bc_standard_mul` return the
same digit array, of length `len1 + len2`. -/
theorem claim_C5 (le : Bool) (n1 n2 : List Nat) (len1 len2 : Nat)
    (h1 : n1.length = len1) (h2 : n2.length = len2)
    (hl1 : 1 ≤ len1) (hl2 : 1 ≤ len2)
    (hw1 : len1 ≤ BC_MUL_UINT_DIGITS) (hw2 : len2 ≤ BC_MUL_UINT_DIGITS)
    (hd1 : ∀ d ∈ n1, d < 10) (hd2 : ∀ d ∈ n2, d < 10) :
    bc_fast_mul le n1 len1 n2 len2 = bc_standard_mul le n1 len1 n2 len2
    ∧ (bc_fast_mul le n1 len1 n2 len2).length = len1 + len2 := by
  constructor
  · rw [fast_mul_spec le n1 n2 len1 len2 h1 h2 hw1 hw2 hd1 hd2,
      standard_mul_spec le n1 n2 len1 len2 h1 h2 hl1 hl2 hd1 hd2]
  · rw [fast_mul_spec le n1 n2 len1 len2 h1 h2 hw1 hw2 hd1 hd2, backfill_length]

theorem claim_C5_witness :
    ([9, 9, 9, 9, 9, 9, 9, 9].length = 8 ∧ (8 : Nat) ≤ BC_MUL_UINT_DIGITS)
    ∧ bc_fast_mul false [9, 9, 9, 9, 9, 9, 9, 9] 8 [7] 1
        = bc_standard_mul false [9, 9, 9, 9, 9, 9, 9, 9] 8 [7] 1
    ∧ (bc_fast_mul false [9, 9, 9, 9, 9, 9, 9, 9] 8 [7] 1).length = 8 + 1 :=
  ⟨⟨by decide, by decide⟩,
    claim_C5 false [9, 9, 9, 9, 9, 9, 9, 9] [7] 8 1 (by decide) (by decide)
      (by decide) (by decide) (by decide) (by decide) (by decide) (by decide)⟩

/-- C6: `bc_partial_convert_to_uint` on `1 ≤ len ≤ W` digits (values
0..9, walked backwards) returns the base-10 positional value of those
digits, and on the `len = W` path the divide-and-conquer chunk parser
agrees with the positional accumulate loop, on both byte orders. -/
theorem claim_C6 (le : Bool) (rds : List Nat) (len : Nat)
    (hl : 1 ≤ len) (hW : len ≤ BC_MUL_UINT_DIGITS)
    (hlen : len ≤ rds.length) (hd : ∀ d ∈ rds, d < 10) :
    bc_partial_convert_to_uint le rds len = baseVal BASE (rds.take len)
    ∧ (len = BC_MUL_UINT_DIGITS →
        bc_parse_chunk_chars le (rds.take BC_MUL_UINT_DIGITS).reverse
          = bc_convert_loop rds len 0 1) := by
  refine ⟨partial_convert_spec le rds len hlen hd, ?_⟩
  intro h8
  subst h8
  rw [parse_chunk_eq_digits le _
    (by
      simp only [List.length_reverse, List.length_take]
      simp only [BC_MUL_UINT_DIGITS] at hlen ⊢
      omega)
    (fun d hd' => hd d (List.take_subset _ _ (List.mem_reverse.mp hd')))]
  rw [List.reverse_reverse, convert_loop_spec rds BC_MUL_UINT_DIGITS 0 1 hlen]
  omega

theorem claim_C6_witness :
    ((1 : Nat) ≤ 8 ∧ [3, 2, 1, 0, 0, 0, 0, 9].length = 8)
    ∧ bc_partial_convert_to_uint true [3, 2, 1, 0, 0, 0, 0, 9] 8
        = baseVal BASE ([3, 2, 1, 0, 0, 0, 0, 9].take 8)
    ∧ ((8 : Nat) = BC_MUL_UINT_DIGITS →
        bc_parse_chunk_chars true ([3, 2, 1, 0, 0, 0, 0, 9].take BC_MUL_UINT_DIGITS).reverse
          = bc_convert_loop [3, 2, 1, 0, 0, 0, 0, 9] 8 0 1) :=
  ⟨⟨by decide, by decide⟩,
    claim_C6 true [3, 2, 1, 0, 0, 0, 0, 9] 8 (by decide) (by decide) (by decide)
      (by decide)⟩

/-- C7: one pass of `bc_digits_adjustment` over an accumulator whose
carry propagation causes no native overflow preserves the length and
the represented value, leaves every slot but the last strictly below
`10^W`, and leaves the last slot holding the undrained quotient of the
represented value. -/
theorem claim_C7 (l : List Nat) (hl : 1 ≤ l.length)
    (hov : adjustNoOverflow l = true) :
    (bc_digits_adjustment l).length = l.length
    ∧ baseVal BC_MUL_UINT_OVERFLOW (bc_digits_adjustment l)
        = baseVal BC_MUL_UINT_OVERFLOW l
    ∧ (∀ idx, idx + 1 < l.length →
        (bc_digits_adjustment l).getD idx 0 < BC_MUL_UINT_OVERFLOW)
    ∧ (bc_digits_adjustment l).getD (l.length - 1) 0
        = baseVal BC_MUL_UINT_OVERFLOW l / BC_MUL_UINT_OVERFLOW ^ (l.length - 1) := by
  have heq : bc_digits_adjustment l = adjustmentP l := by
    cases l with
    | nil => simp at hl
    | cons x t => exact adjustment_eq_adjustmentP t x hov
  rw [heq]
  exact adjustmentP_spec l hl

theorem claim_C7_witness :
    (1 ≤ [123456789, 5].length ∧ adjustNoOverflow [123456789, 5] = true)
    ∧ (bc_digits_adjustment [123456789, 5]).length = [123456789, 5].length
    ∧ baseVal BC_MUL_UINT_OVERFLOW (bc_digits_adjustment [123456789, 5])
        = baseVal BC_MUL_UINT_OVERFLOW [123456789, 5]
    ∧ (∀ idx, idx + 1 < [123456789, 5].length →
        (bc_digits_adjustment [123456789, 5]).getD idx 0 < BC_MUL_UINT_OVERFLOW)
    ∧ (bc_digits_adjustment [123456789, 5]).getD ([123456789, 5].length - 1) 0
        = baseVal BC_MUL_UINT_OVERFLOW [123456789, 5]
          / BC_MUL_UINT_OVERFLOW ^ ([123456789, 5].length - 1) :=
  ⟨⟨by decide,
      adjustNoOverflow_of_bounded 123456789 2 (by decide) (by decide) [5] 123456789
        (by decide) (by decide)⟩,
    claim_C7 [123456789, 5] (by decide)
      (adjustNoOverflow_of_bounded 123456789 2 (by decide) (by decide) [5] 123456789
        (by decide) (by decide))⟩

/-- C8: the emission phase of `bc_standard_mul` writes each of the
`len1 + len2` output positions exactly once: the result is literally
the scalar backfill of the last limb followed by `W` digits per
remaining limb, the two phase lengths are the stated ones and add up
to `len1 + len2`, and the residual of the last limb is fully drained
when the scalar phase ends. -/
theorem claim_C8 (le : Bool) (n1 n2 : List Nat) (len1 len2 : Nat)
    (h1 : n1.length = len1) (h2 : n2.length = len2)
    (hl1 : 1 ≤ len1) (hl2 : 1 ≤ len2)
    (hd1 : ∀ d ∈ n1, d < 10) (hd2 : ∀ d ∈ n2, d < 10)
    (hbig : BC_MUL_UINT_DIGITS < max len1 len2)
    (P : Nat)
    (hP : P = (len1 + BC_MUL_UINT_DIGITS - 1) / BC_MUL_UINT_DIGITS
      + (len2 + BC_MUL_UINT_DIGITS - 1) / BC_MUL_UINT_DIGITS - 1)
    (acc : List Nat)
    (hacc : acc = bc_digits_adjustment (mulAddRun
      (bc_convert_to_uint le n1.reverse len1) (bc_convert_to_uint le n2.reverse len2)
      P ((len1 + BC_MUL_UINT_DIGITS - 1) / BC_MUL_UINT_DIGITS)).1) :
    bc_standard_mul le n1 len1 n2 len2
      = bc_backfill_digits (acc.getD (P - 1) 0)
          (len1 + len2 - BC_MUL_UINT_DIGITS * (P - 1))
        ++ emitBulk le acc (P - 1)
    ∧ (bc_backfill_digits (acc.getD (P - 1) 0)
        (len1 + len2 - BC_MUL_UINT_DIGITS * (P - 1))).length
      = len1 + len2 - BC_MUL_UINT_DIGITS * (P - 1)
    ∧ (emitBulk le acc (P - 1)).length = BC_MUL_UINT_DIGITS * (P - 1)
    ∧ len1 + len2 - BC_MUL_UINT_DIGITS * (P - 1) + BC_MUL_UINT_DIGITS * (P - 1)
      = len1 + len2
    ∧ acc.getD (P - 1) 0 / BASE ^ (len1 + len2 - BC_MUL_UINT_DIGITS * (P - 1)) = 0 := by
  subst hP
  subst hacc
  obtain ⟨hc1len, hc1bd, hc1val⟩ := convert_to_uint_spec le len1 n1.reverse
    (by simp [h1]) (fun d hd => hd1 d (List.mem_reverse.mp hd))
  obtain ⟨hc2len, hc2bd, hc2val⟩ := convert_to_uint_spec le len2 n2.reverse
    (by simp [h2]) (fun d hd => hd2 d (List.mem_reverse.mp hd))
  have hv1 : baseVal BC_MUL_UINT_OVERFLOW (bc_convert_to_uint le n1.reverse len1)
      = digitsVal n1 := by
    rw [hc1val, List.take_of_length_le (by simp [h1])]
    rfl
  have hv2 : baseVal BC_MUL_UINT_OVERFLOW (bc_convert_to_uint le n2.reverse len2)
      = digitsVal n2 := by
    rw [hc2val, List.take_of_length_le (by simp [h2])]
    rfl
  have ha1 : 1 ≤ (bc_convert_to_uint le n1.reverse len1).length := by
    rw [hc1len]
    simp only [BC_MUL_UINT_DIGITS]
    omega
  have ha2 : 1 ≤ (bc_convert_to_uint le n2.reverse len2).length := by
    rw [hc2len]
    simp only [BC_MUL_UINT_DIGITS]
    omega
  have hPeq : ((len1 + BC_MUL_UINT_DIGITS - 1) / BC_MUL_UINT_DIGITS
        + (len2 + BC_MUL_UINT_DIGITS - 1) / BC_MUL_UINT_DIGITS - 1) + 1
      = (bc_convert_to_uint le n1.reverse len1).length
        + (bc_convert_to_uint le n2.reverse len2).length := by
    rw [hc1len, hc2len]
    simp only [BC_MUL_UINT_DIGITS]
    omega
  obtain ⟨hfadj, hflen, hfval, hfbd, hflast⟩ := final_state_spec
    (bc_convert_to_uint le n1.reverse len1) (bc_convert_to_uint le n2.reverse len2)
    ((len1 + BC_MUL_UINT_DIGITS - 1) / BC_MUL_UINT_DIGITS
      + (len2 + BC_MUL_UINT_DIGITS - 1) / BC_MUL_UINT_DIGITS - 1)
    hPeq hc1bd hc2bd ha1 ha2
  rw [hc1len] at hfadj hflast
  have hprodbound : digitsVal n1 * digitsVal n2 < BASE ^ (len1 + len2) := by
    have hb1 := digitsVal_lt n1 hd1
    have hb2 := digitsVal_lt n2 hd2
    rw [h1] at hb1
    rw [h2] at hb2
    calc digitsVal n1 * digitsVal n2 < BASE ^ len1 * BASE ^ len2 :=
          Nat.mul_lt_mul_of_lt_of_le hb1 (le_of_lt hb2)
            (Nat.pos_pow_of_pos _ (by decide))
      _ = BASE ^ (len1 + len2) := by rw [← pow_add]
  refine ⟨rfl, backfill_length _ _, emitBulk_length le _ _, ?_, ?_⟩
  · simp only [BC_MUL_UINT_DIGITS]
    omega
  · rw [hfadj, hflast, hv1, hv2]
    apply Nat.div_eq_of_lt
    apply Nat.div_lt_of_lt_mul
    have hob : BC_MUL_UINT_OVERFLOW = BASE ^ BC_MUL_UINT_DIGITS := by decide
    rw [hob, ← pow_mul, ← pow_add]
    calc digitsVal n1 * digitsVal n2 < BASE ^ (len1 + len2) := hprodbound
      _ ≤ BASE ^ (BC_MUL_UINT_DIGITS
            * ((len1 + BC_MUL_UINT_DIGITS - 1) / BC_MUL_UINT_DIGITS
              + (len2 + BC_MUL_UINT_DIGITS - 1) / BC_MUL_UINT_DIGITS - 1 - 1)
          + (len1 + len2 - BC_MUL_UINT_DIGITS
            * ((len1 + BC_MUL_UINT_DIGITS - 1) / BC_MUL_UINT_DIGITS
              + (len2 + BC_MUL_UINT_DIGITS - 1) / BC_MUL_UINT_DIGITS - 1 - 1))) := by
          apply Nat.pow_le_pow_right (by decide)
          simp only [BC_MUL_UINT_DIGITS]
          omega

theorem claim_C8_witness :
    (BC_MUL_UINT_DIGITS < max 9 1
      ∧ (1 : Nat) ≤ 9
      ∧ [1, 2, 3, 4, 5, 6, 7, 8, 9].length = 9)
    ∧ bc_standard_mul false [1, 2, 3, 4, 5, 6, 7, 8, 9] 9 [2] 1
        = bc_backfill_digits
            ((bc_digits_adjustment (mulAddRun
              (bc_convert_to_uint false [1, 2, 3, 4, 5, 6, 7, 8, 9].reverse 9)
              (bc_convert_to_uint false [2].reverse 1)
              ((9 + BC_MUL_UINT_DIGITS - 1) / BC_MUL_UINT_DIGITS
                + (1 + BC_MUL_UINT_DIGITS - 1) / BC_MUL_UINT_DIGITS - 1)
              ((9 + BC_MUL_UINT_DIGITS - 1) / BC_MUL_UINT_DIGITS)).1).getD
              (((9 + BC_MUL_UINT_DIGITS - 1) / BC_MUL_UINT_DIGITS
                + (1 + BC_MUL_UINT_DIGITS - 1) / BC_MUL_UINT_DIGITS - 1) - 1) 0)
            (9 + 1 - BC_MUL_UINT_DIGITS
              * (((9 + BC_MUL_UINT_DIGITS - 1) / BC_MUL_UINT_DIGITS
                + (1 + BC_MUL_UINT_DIGITS - 1) / BC_MUL_UINT_DIGITS - 1) - 1))
          ++ emitBulk false
              (bc_digits_adjustment (mulAddRun
                (bc_convert_to_uint false [1, 2, 3, 4, 5, 6, 7, 8, 9].reverse 9)
                (bc_convert_to_uint false [2].reverse 1)
                ((9 + BC_MUL_UINT_DIGITS - 1) / BC_MUL_UINT_DIGITS
                  + (1 + BC_MUL_UINT_DIGITS - 1) / BC_MUL_UINT_DIGITS - 1)
                ((9 + BC_MUL_UINT_DIGITS - 1) / BC_MUL_UINT_DIGITS)).1)
              (((9 + BC_MUL_UINT_DIGITS - 1) / BC_MUL_UINT_DIGITS
                + (1 + BC_MUL_UINT_DIGITS - 1) / BC_MUL_UINT_DIGITS - 1) - 1)
    ∧ ((bc_digits_adjustment (mulAddRun
          (bc_convert_to_uint false [1, 2, 3, 4, 5, 6, 7, 8, 9].reverse 9)
          (bc_convert_to_uint false [2].reverse 1)
          ((9 + BC_MUL_UINT_DIGITS - 1) / BC_MUL_UINT_DIGITS
            + (1 + BC_MUL_UINT_DIGITS - 1) / BC_MUL_UINT_DIGITS - 1)
          ((9 + BC_MUL_UINT_DIGITS - 1) / BC_MUL_UINT_DIGITS)).1).getD
          (((9 + BC_MUL_UINT_DIGITS - 1) / BC_MUL_UINT_DIGITS
            + (1 + BC_MUL_UINT_DIGITS - 1) / BC_MUL_UINT_DIGITS - 1) - 1) 0)
        / BASE ^ (9 + 1 - BC_MUL_UINT_DIGITS
          * (((9 + BC_MUL_UINT_DIGITS - 1) / BC_MUL_UINT_DIGITS
            + (1 + BC_MUL_UINT_DIGITS - 1) / BC_MUL_UINT_DIGITS - 1) - 1)) = 0 := by
  have h := claim_C8 false [1, 2, 3, 4, 5, 6, 7, 8, 9] [2] 9 1 (by decide) (by decide)
    (by decide) (by decide) (by decide) (by decide) (by decide)
    ((9 + BC_MUL_UINT_DIGITS - 1) / BC_MUL_UINT_DIGITS
      + (1 + BC_MUL_UINT_DIGITS - 1) / BC_MUL_UINT_DIGITS - 1) rfl
    (bc_digits_adjustment (mulAddRun
      (bc_convert_to_uint false [1, 2, 3, 4, 5, 6, 7, 8, 9].reverse 9)
      (bc_convert_to_uint false [2].reverse 1)
      ((9 + BC_MUL_UINT_DIGITS - 1) / BC_MUL_UINT_DIGITS
        + (1 + BC_MUL_UINT_DIGITS - 1) / BC_MUL_UINT_DIGITS - 1)
      ((9 + BC_MUL_UINT_DIGITS - 1) / BC_MUL_UINT_DIGITS)).1) rfl
  exact ⟨⟨by decide, by decide, by decide⟩, h.1, h.2.2.2.2⟩

/-- C9: `bc_multiply` is commutative: swapping the operands yields the
same record — same sign, integer length, scale and digits. -/
theorem claim_C9 (le : Bool) (n1 n2 : BcNum) (s : Nat)
    (w1 : WellFormed n1) (w2 : WellFormed n2) :
    bc_multiply le n1 n2 s = bc_multiply le n2 n1 s := by
  rw [bc_multiply_canonical le n1 n2 s w1 w2,
    bc_multiply_canonical le n2 n1 s w2 w1]
  have hsgn : (if n1.n_sign = n2.n_sign then Sign.plus else Sign.minus)
      = (if n2.n_sign = n1.n_sign then Sign.plus else Sign.minus) := by
    cases h1 : n1.n_sign <;> cases h2 : n2.n_sign <;> rfl
  rw [hsgn, Nat.add_comm n1.n_len n2.n_len, Nat.add_comm n1.n_scale n2.n_scale,
    Nat.max_comm n1.n_scale n2.n_scale,
    Nat.mul_comm (digitsVal n1.n_value) (digitsVal n2.n_value)]

theorem claim_C9_witness :
    WellFormed { n_sign := Sign.minus, n_len := 1, n_scale := 1, n_value := [1, 5] }
    ∧ WellFormed { n_sign := Sign.plus, n_len := 2, n_scale := 0, n_value := [4, 2] }
    ∧ bc_multiply true
        { n_sign := Sign.minus, n_len := 1, n_scale := 1, n_value := [1, 5] }
        { n_sign := Sign.plus, n_len := 2, n_scale := 0, n_value := [4, 2] } 1
      = bc_multiply true
          { n_sign := Sign.plus, n_len := 2, n_scale := 0, n_value := [4, 2] }
          { n_sign := Sign.minus, n_len := 1, n_scale := 1, n_value := [1, 5] } 1 :=
  ⟨by decide, by decide,
    claim_C9 true
      { n_sign := Sign.minus, n_len := 1, n_scale := 1, n_value := [1, 5] }
      { n_sign := Sign.plus, n_len := 2, n_scale := 0, n_value := [4, 2] } 1
      (by decide) (by decide)⟩

/-- C10: for every value below 10000, `bc_write_bcd_representation`
writes exactly the four decimal digits of the value, most significant
first (zero-padded on the left), each byte a raw digit 0..9, with the
same memory result on little- and big-endian platforms. -/
theorem claim_C10 (le : Bool) (v : Nat) (hv : v < 10000) :
    bc_write_bcd_representation le v
      = [v / 1000, v / 100 % 10, v / 10 % 10, v % 10]
    ∧ (∀ d ∈ bc_write_bcd_representation le v, d < 10)
    ∧ bc_write_bcd_representation true v = bc_write_bcd_representation false v := by
  refine ⟨bcd_write_spec le v hv, ?_, ?_⟩
  · rw [bcd_write_spec le v hv]
    intro d hd
    simp only [List.mem_cons, List.not_mem_nil, or_false] at hd
    rcases hd with rfl | rfl | rfl | rfl
    · omega
    · omega
    · omega
    · omega
  · rw [bcd_write_spec true v hv, bcd_write_spec false v hv]

theorem claim_C10_witness :
    2026 < 10000
    ∧ bc_write_bcd_representation true 2026
        = [2026 / 1000, 2026 / 100 % 10, 2026 / 10 % 10, 2026 % 10]
    ∧ (∀ d ∈ bc_write_bcd_representation true 2026, d < 10)
    ∧ bc_write_bcd_representation true 2026 = bc_write_bcd_representation false 2026 :=
  ⟨by decide, claim_C10 true 2026 (by decide)⟩

end BcMath
